import Mathlib

/-!
# Verification of the TypeFree audio/ASR core

Shallow embedding of the parts of the TypeFree repository
(`src/src-tauri/src/resample.rs`, `src/src-tauri/src/audio.rs`,
`src/src-tauri/src/doubao_asr.rs`) that the frozen claims are about,
together with proofs settling each claim.

The resampler does its arithmetic in Rust `f64`.  We model `f64` values
exactly as the rationals they denote, and every `f64` operation as the exact
rational operation followed by `rnd`, IEEE-754 round-to-nearest, ties-to-even
at 53 bits of precision.  All values arising in the resampler are far inside
the normal range of binary64 (magnitudes between `2^-40` and `2^64`), so
neither subnormals, overflow to infinity, nor NaNs can arise, and this model
is exact.  Divisions always have nonzero divisors on the paths we reason
about (sample rates are positive; theorems carry positivity hypotheses).
-/

namespace TypeFree

/-! ## Exact model of IEEE-754 binary64 rounding -/

/-- Floor of the base-2 logarithm of a positive rational: the unique `d`
with `2^d ≤ q < 2^(d+1)`. -/
def ilog2q (q : ℚ) : ℤ := Int.log 2 q

/-- Round an integer-plus-remainder to the nearest integer, ties to even:
`n` is the integer part, `r ∈ [0,1)` the remainder. -/
def halfEven (n : ℤ) (r : ℚ) : ℤ :=
  if r < 1/2 then n else if 1/2 < r then n + 1 else if 2 ∣ n then n else n + 1

/-- Round a positive rational to the nearest binary64 value (ties to even):
scale into the binade `[2^52, 2^53)`, round to an integer mantissa, scale
back. -/
def rndPos (q : ℚ) : ℚ :=
  let s : ℚ := q * 2 ^ (52 - ilog2q q)
  (halfEven ⌊s⌋ (s - ⌊s⌋) : ℚ) * 2 ^ (ilog2q q - 52)

/-- Round a rational to the nearest binary64 value (ties to even), assuming
the normal range (no overflow/underflow, which the resampler never hits). -/
def rnd (q : ℚ) : ℚ :=
  if q = 0 then 0 else if 0 < q then rndPos q else - rndPos (-q)

/-- A rational is representable as a binary64 value (normal range):
an integer mantissa of magnitude at most `2^53` times a power of two. -/
def isRepr (q : ℚ) : Prop := ∃ m e : ℤ, |m| ≤ 2^53 ∧ q = (m:ℚ) * 2 ^ e

/-- Truncation toward zero of a rational (the rounding Rust `as` casts use). -/
def qtrunc (v : ℚ) : ℤ := if 0 ≤ v then ⌊v⌋ else ⌈v⌉

/-- Rust `f64 as usize`: truncate toward zero, saturating at the ends of the
`usize` range (negative values go to 0). -/
def f64toUsize (v : ℚ) : ℕ := if v < 0 then 0 else min ⌊v⌋.toNat (2^64 - 1)

/-- Rust `f64 as i16`: truncate toward zero, saturating into the i16 range. -/
def f64toI16 (v : ℚ) : ℤ := max (-32768) (min 32767 (qtrunc v))

/-! ## `resample.rs`: the linear resampler

`resample_linear` (lines 102-136 of `src/src-tauri/src/resample.rs`),
with i16 samples as integers and every `f64` operation made exact-then-
rounded.  Casts of `u32`/`usize`/`i16` operands to `f64` are `rnd` of the
exact value (`rnd` is the identity on them whenever they are below `2^53`,
which u32 and i16 always are). -/

/-- `let ratio = from_rate as f64 / to_rate as f64`. -/
def ratio (from_rate to_rate : ℕ) : ℚ := rnd (rnd from_rate / rnd to_rate)

/-- `let new_len = (input.len() as f64 / ratio) as usize`. -/
def new_len (len from_rate to_rate : ℕ) : ℕ :=
  f64toUsize (rnd (rnd len / ratio from_rate to_rate))

/-- One iteration of the output loop of `resample_linear`: the sample pushed
for output index `i`. -/
def linearSample (input : List ℤ) (from_rate to_rate : ℕ) (i : ℕ) : ℤ :=
  let src_pos : ℚ := rnd (rnd i * ratio from_rate to_rate)
  let src_idx : ℕ := f64toUsize src_pos
  let frac : ℚ := rnd (src_pos - rnd src_idx)
  if src_idx + 1 < input.length then
    let y0 : ℚ := rnd (input.getD src_idx 0 : ℤ)
    let y1 : ℚ := rnd (input.getD (src_idx + 1) 0 : ℤ)
    f64toI16 (rnd (y0 + rnd (rnd (y1 - y0) * frac)))
  else input.getD (input.length - 1) 0

/-- `resample_linear` from `resample.rs` lines 102-136. -/
def resample_linear (input : List ℤ) (from_rate to_rate : ℕ) : List ℤ :=
  if input.length = 0 then []
  else if input.length = 1 then input
  else if new_len input.length from_rate to_rate = 0 then []
  else (List.range (new_len input.length from_rate to_rate)).map
    (linearSample input from_rate to_rate)

/-! ## `resample.rs`: the Sinc resampler wrapper and the entry point

`resample_sinc` (lines 139-192) wraps the external `rubato` crate, which is
not part of this repository; its construction and processing are abstracted
as an oracle.  The global `SINC_RESAMPLER` mutex cell is threaded as an
explicit `Option` state. -/

/-- The cached Sinc resampler: external filter state plus the rate pair it
was built for (struct `SincResampler`, lines 29-33). -/
structure SincState (S : Type) where
  state : S
  from_rate : ℕ
  to_rate : ℕ

/-- Oracle abstracting the external `rubato` crate: `create` models
`SincResampler::new(from, to, chunk_size)`; `process` models
`resampler.process` together with the surrounding i16/f32 scaling, returning
the updated filter state and the output samples. -/
structure SincOracle (S : Type) where
  create : ℕ → ℕ → ℕ → Except String S
  process : S → List ℤ → Except String (S × List ℤ)

/-- `need_recreate` (lines 152-155): the cached resampler must be rebuilt on
first use or when the rate pair changed. -/
def need_recreate {S : Type} (guard : Option (SincState S)) (from_rate to_rate : ℕ) : Bool :=
  match guard with
  | some r => decide (r.from_rate ≠ from_rate) || decide (r.to_rate ≠ to_rate)
  | none => true

/-- The state of the `SINC_RESAMPLER` cell after the recreation step (lines
157-171): on a needed recreation that fails, the error is surfaced (and the
caller falls back to linear); otherwise the cell holds a usable resampler. -/
def afterCreate {S : Type} (oracle : SincOracle S) (guard : Option (SincState S))
    (from_rate to_rate chunk_size : ℕ) : Except String (Option (SincState S)) :=
  if need_recreate guard from_rate to_rate then
    match oracle.create from_rate to_rate chunk_size with
    | .ok s => .ok (some ⟨s, from_rate, to_rate⟩)
    | .error e => .error e
  else .ok guard

/-- `resample_sinc` from `resample.rs` lines 139-192: recreate the cached
resampler when the rate pair changed (or none is cached), falling back to
`resample_linear` when creation or processing fails. -/
def resample_sinc {S : Type} (oracle : SincOracle S) (guard : Option (SincState S))
    (input : List ℤ) (from_rate to_rate : ℕ) : List ℤ × Option (SincState S) :=
  if input.isEmpty then ([], guard)
  else
    match afterCreate oracle guard from_rate to_rate (max input.length 1024) with
    | .error _ => (resample_linear input from_rate to_rate, guard)
    | .ok none => (resample_linear input from_rate to_rate, none)
    | .ok (some r) =>
      match oracle.process r.state input with
      | .ok (s2, out) => (out, some ⟨s2, r.from_rate, r.to_rate⟩)
      | .error _ => (resample_linear input from_rate to_rate, some r)

/-- The resampling algorithm selected once per process (`ResampleMethod`,
lines 10-14). -/
inductive ResampleMethod
  | Linear
  | Sinc
deriving DecidableEq

/-- `resample` from `resample.rs` lines 83-99: equal rates return the input
unchanged; otherwise dispatch on the selected method.  The `SINC_RESAMPLER`
global is threaded explicitly; the Rust function returns only the sample
vector (`.1` here) and never an error. -/
def resample {S : Type} (oracle : SincOracle S) (method : ResampleMethod)
    (guard : Option (SincState S)) (input : List ℤ) (from_rate to_rate : ℕ) :
    List ℤ × Option (SincState S) :=
  if from_rate = to_rate then (input, guard)
  else match method with
    | .Linear => (resample_linear input from_rate to_rate, guard)
    | .Sinc => resample_sinc oracle guard input from_rate to_rate

/-! ## `audio.rs`: channel downmix and chunk accumulation -/

/-- Rust `as i16` from a wider integer: two's-complement truncation. -/
def wrapI16 (z : ℤ) : ℤ := (z + 32768) % 65536 - 32768

/-- `data.chunks(c)` (fuel-structured so that it computes by `decide`): the
final chunk may be shorter.  `fuel ≥ data.length` makes the fuel irrelevant. -/
def chunksAux (c : ℕ) : ℕ → List ℤ → List (List ℤ)
  | 0, _ => []
  | _ + 1, [] => []
  | fuel + 1, x :: xs => (x :: xs).take c :: chunksAux c fuel ((x :: xs).drop c)

/-- `data.chunks(c)` for nonempty chunk size `c`. -/
def listChunks (c : ℕ) (data : List ℤ) : List (List ℤ) := chunksAux c data.length data

/-- The stereo→mono step of `convert_i16_to_16k_mono` (`audio.rs` lines
203-211): frames of `channels` samples are averaged with `i32` arithmetic
(which cannot overflow for i16 inputs and at most `u16::MAX` channels) and
the truncating `/` of Rust, then cast back to i16. -/
def downmixMono (channels : ℕ) (data : List ℤ) : List ℤ :=
  if 1 < channels then
    (listChunks channels data).map (fun chunk => wrapI16 (Int.tdiv chunk.sum channels))
  else data

/-- `CHUNK_SIZE` from `audio.rs` line 13. -/
def CHUNK_SIZE : ℕ := 4096

/-- The `while buf.len() >= CHUNK_SIZE { .. drain(..CHUNK_SIZE) .. }` loop of
the capture callback (`audio.rs` lines 115-120 / 143-148), fuel-structured:
returns the emitted chunks in order and the remaining buffer. -/
def drainAux : ℕ → List ℤ → List (List ℤ) × List ℤ
  | 0, buf => ([], buf)
  | fuel + 1, buf =>
    if CHUNK_SIZE ≤ buf.length then
      let r := drainAux fuel (buf.drop CHUNK_SIZE)
      (buf.take CHUNK_SIZE :: r.1, r.2)
    else ([], buf)

/-- Drain all full `CHUNK_SIZE`-sample chunks from the accumulation buffer. -/
def drainChunks (buf : List ℤ) : List (List ℤ) × List ℤ := drainAux buf.length buf

/-- One hardware-callback invocation (`audio.rs` lines 111-120): append the
converted samples to the accumulation buffer, emit every full chunk. -/
def processPacket (buf samples : List ℤ) : List (List ℤ) × List ℤ :=
  drainChunks (buf ++ samples)

/-- All chunks emitted while capture is active, over a whole run of callback
invocations, together with the final accumulation buffer. -/
def captureChunks (packets : List (List ℤ)) : List (List ℤ) × List ℤ :=
  packets.foldl
    (fun acc pkt =>
      let r := processPacket acc.2 pkt
      (acc.1 ++ r.1, r.2))
    ([], [])

/-- A whole capture run including the stop-flag flush (`audio.rs` lines
181-187): after the capture loop, the remaining buffer is sent as one final
chunk if it is non-empty. -/
def captureRun (packets : List (List ℤ)) : List (List ℤ) :=
  let r := captureChunks packets
  r.1 ++ (if r.2.isEmpty then [] else [r.2])

/-- Little-endian byte serialization of i16 samples
(`chunk.iter().flat_map(|&s| s.to_le_bytes())`, `audio.rs` lines 117-118). -/
def toLEBytes (samples : List ℤ) : List ℕ :=
  (samples.map (fun s => [(s % 65536).toNat % 256, (s % 65536).toNat / 256])).flatten

/-! ## `doubao_asr.rs`: the inbound receiver of `run_asr_session`

The receive task (lines 129-232) is modeled as a deterministic loop over a
script of iterations.  Each iteration supplies the wall-clock instant at the
top of the loop body, the value of the stop flag, and the outcome of the
100 ms `ws_rx.next()` poll.  Callbacks and the credential invalidation are
recorded as an event trace. -/

/-- The fields of an inbound JSON text frame that `run_asr_session` reads:
`event`, `result.Text`, `code`, `message` (each absent when the JSON does
not carry it as the expected type). -/
structure Frame where
  event : Option String
  resultText : Option String
  code : Option ℤ
  message : Option String
deriving DecidableEq

/-- One result of polling the WebSocket stream. -/
inductive InMsg
  /-- `Ok(Message::Text(t))`; `none` when `serde_json::from_str` fails. -/
  | text (f : Option Frame)
  /-- `Ok(Message::Close(_))`. -/
  | close
  /-- `Err(e)`: a WebSocket receive error. -/
  | wsError
  /-- any other message kind (binary, ping, ...), the `_ => {}` arm. -/
  | other
  /-- `Ok(None)`: the stream ended. -/
  | streamEnd
deriving DecidableEq

/-- One iteration of the receive loop: the instant (ms) at its top, the stop
flag it reads, and the poll result (`none` = the 100 ms timeout elapsed). -/
structure Iter where
  now : ℕ
  stop : Bool
  msg : Option InMsg
deriving DecidableEq

/-- Observable effects of the receive loop. -/
inductive Event
  /-- `on_partial(s)` was invoked. -/
  | onPartial (s : String)
  /-- `on_final(s)` was invoked. -/
  | onFinal (s : String)
  /-- `doubao_cdp::clear_cached_cookies()` was invoked. -/
  | invalidate
deriving DecidableEq

/-- How (whether) the receive loop ended. -/
inductive Outcome
  /-- `return` after an inbound `finish` event. -/
  | finished
  /-- `break` on expiry of the 1 s grace deadline. -/
  | timedOut
  /-- `break` after an inbound frame with empty event and nonzero code. -/
  | errored
  /-- `break` after `Close`, a receive error, or end of stream. -/
  | closed
  /-- the script ran out with the loop still going. -/
  | pending
deriving DecidableEq

/-- Mutable state of the receive loop: `final_text` and `finish_timeout`. -/
structure RecvState where
  finalText : String
  deadline : Option ℕ
deriving DecidableEq

/-- Processing of one polled message (the `match recv_result` body, lines
157-228): events emitted, loop exit if any, updated state. -/
def procMsg (st : RecvState) (m : Option InMsg) :
    List Event × Option Outcome × RecvState :=
  match m with
  | none => ([], none, st)
  | some (.text none) => ([], none, st)
  | some (.text (some f)) =>
    let ev := f.event.getD ""
    if ev = "result" then
      match f.resultText with
      | some s => if s ≠ "" then ([.onPartial s], none, { st with finalText := s })
                  else ([], none, st)
      | none => ([], none, st)
    else if ev = "finish" then
      ((if st.finalText ≠ "" then [.onFinal st.finalText] else []), some .finished, st)
    else if ev = "" then
      match f.code with
      | some c => if c ≠ 0 then ([.invalidate], some .errored, st) else ([], none, st)
      | none => ([], none, st)
    else ([], none, st)
  | some .close =>
    ((if st.finalText ≠ "" then [.onFinal st.finalText] else []), some .closed, st)
  | some .wsError => ([], some .closed, st)
  | some .other => ([], none, st)
  | some .streamEnd =>
    ((if st.finalText ≠ "" then [.onFinal st.finalText] else []), some .closed, st)

/-- Arming of the 1 s grace deadline (lines 135-138): when the stop flag is
seen and no deadline is armed yet, set it one second from now. -/
def armSt (st : RecvState) (it : Iter) : RecvState :=
  if it.stop && st.deadline.isNone
  then { st with deadline := some (it.now + 1000) } else st

/-- One full iteration of the receive loop (lines 133-229): arm the 1 s grace
deadline when the stop flag is first seen, fire the timeout path when the
deadline has passed, otherwise poll and process one message. -/
def stepRecv (st : RecvState) (it : Iter) : List Event × Option Outcome × RecvState :=
  let st1 := armSt st it
  match st1.deadline with
  | some d =>
    if d ≤ it.now then
      ((if st1.finalText ≠ "" then [.onFinal st1.finalText] else []), some .timedOut, st1)
    else procMsg st1 it.msg
  | none => procMsg st1 it.msg

/-- Run the receive loop over a script of iterations. -/
def runRecv (st : RecvState) : List Iter → List Event × Outcome
  | [] => ([], .pending)
  | it :: rest =>
    match stepRecv st it with
    | (evs, some o, _) => (evs, o)
    | (evs, none, st') =>
      let r := runRecv st' rest
      (evs ++ r.1, r.2)

/-- The receive loop from its initial state (`final_text` empty, no
deadline, lines 130-131). -/
def runRecvSession (script : List Iter) : List Event × Outcome :=
  runRecv ⟨"", none⟩ script

/-- `run_asr_session` after a successful connect: the three tasks are joined
with their results discarded and the function returns `Ok(())`
(lines 234-238), whatever the receive loop did. -/
def runSession (script : List Iter) : (List Event × Outcome) × Except String Unit :=
  (runRecvSession script, Except.ok ())

/-- Is an event an `on_final` invocation? -/
def isFinal : Event → Bool
  | .onFinal _ => true
  | _ => false

/-- Is an event an `on_partial` invocation? -/
def isPartialEv : Event → Bool
  | .onPartial _ => true
  | _ => false

/-- The text of the last `on_partial` in a trace (`s0` if none). -/
def lastPartialText (s0 : String) (evs : List Event) : String :=
  evs.foldl (fun acc e => match e with | .onPartial s => s | _ => acc) s0

/-- The one-frame script carrying an inbound frame whose `event` is the
empty string and whose `code` is the nonzero 45000002. -/
def errScript : List Iter :=
  [⟨0, false, some (.text (some ⟨some "", none, some 45000002, some "blocked"⟩))⟩]

/-- The inbound script of claim C4: `Partial("A")`, `Partial("AB")`,
`Finish`. -/
def scriptC4 : List Iter :=
  [⟨0, false, some (.text (some ⟨some "result", some "A", none, none⟩))⟩,
   ⟨100, false, some (.text (some ⟨some "result", some "AB", none, none⟩))⟩,
   ⟨200, false, some (.text (some ⟨some "finish", none, none, none⟩))⟩]

/-! ## Trace lemmas for the receive loop -/

theorem armSt_finalText (st : RecvState) (it : Iter) :
    (armSt st it).finalText = st.finalText := by
  unfold armSt; split <;> rfl

/-- Exhaustive behaviour of one message-processing step: it either continues
(emitting nothing, or one `on_partial` that overwrites `final_text`), or
terminates with one of the `finished`/`errored`/`closed` exits; the
`errored` exit emits exactly the credential invalidation. -/
theorem procMsg_spec (st : RecvState) (m : Option InMsg) :
    ((procMsg st m).2.1 = none ∧
      (((procMsg st m).1 = [] ∧ (procMsg st m).2.2 = st) ∨
       (∃ s, s ≠ "" ∧ (procMsg st m).1 = [Event.onPartial s] ∧
         (procMsg st m).2.2 = { st with finalText := s }))) ∨
    (procMsg st m).2.1 = some Outcome.finished ∨
    ((procMsg st m).2.1 = some Outcome.errored ∧
      (procMsg st m).1 = [Event.invalidate] ∧ (procMsg st m).2.2 = st) ∨
    (procMsg st m).2.1 = some Outcome.closed := by
  rcases m with _ | mm
  · exact Or.inl ⟨rfl, Or.inl ⟨rfl, rfl⟩⟩
  cases mm with
  | text f =>
    rcases f with _ | f
    · exact Or.inl ⟨rfl, Or.inl ⟨rfl, rfl⟩⟩
    by_cases h1 : f.event.getD "" = "result"
    · rcases hrt : f.resultText with _ | s
      · refine Or.inl ⟨?_, Or.inl ⟨?_, ?_⟩⟩ <;> simp [procMsg, h1, hrt]
      by_cases h2 : s = ""
      · subst h2
        refine Or.inl ⟨?_, Or.inl ⟨?_, ?_⟩⟩ <;> simp [procMsg, h1, hrt]
      · refine Or.inl ⟨?_, Or.inr ⟨s, h2, ?_, ?_⟩⟩ <;> simp [procMsg, h1, hrt, h2]
    by_cases h2 : f.event.getD "" = "finish"
    · refine Or.inr (Or.inl ?_); simp [procMsg, h1, h2]
    by_cases h3 : f.event.getD "" = ""
    · rcases hc : f.code with _ | c
      · refine Or.inl ⟨?_, Or.inl ⟨?_, ?_⟩⟩ <;> simp [procMsg, h1, h2, h3, hc]
      by_cases h4 : c = 0
      · subst h4
        refine Or.inl ⟨?_, Or.inl ⟨?_, ?_⟩⟩ <;> simp [procMsg, h1, h2, h3, hc]
      · refine Or.inr (Or.inr (Or.inl ⟨?_, ?_, ?_⟩)) <;> simp [procMsg, h1, h2, h3, hc, h4]
    · refine Or.inl ⟨?_, Or.inl ⟨?_, ?_⟩⟩ <;> simp [procMsg, h1, h2, h3]
  | close => refine Or.inr (Or.inr (Or.inr ?_)); simp [procMsg]
  | wsError => refine Or.inr (Or.inr (Or.inr ?_)); simp [procMsg]
  | other => exact Or.inl ⟨rfl, Or.inl ⟨rfl, rfl⟩⟩
  | streamEnd => refine Or.inr (Or.inr (Or.inr ?_)); simp [procMsg]

/-- Exhaustive behaviour of one loop iteration, tracking only what the run
lemmas need: the `timedOut` exit emits exactly `on_final(final_text)` when a
partial was stored and nothing otherwise; the `errored` exit emits exactly
the invalidation; continuing steps emit nothing or one `on_partial` that
becomes the stored transcript. -/
theorem stepRecv_spec (st : RecvState) (it : Iter) :
    ((stepRecv st it).2.1 = none ∧
      (((stepRecv st it).1 = [] ∧ (stepRecv st it).2.2.finalText = st.finalText) ∨
       (∃ s, s ≠ "" ∧ (stepRecv st it).1 = [Event.onPartial s] ∧
         (stepRecv st it).2.2.finalText = s))) ∨
    ((stepRecv st it).2.1 = some Outcome.timedOut ∧
      (stepRecv st it).1 =
        (if st.finalText ≠ "" then [Event.onFinal st.finalText] else [])) ∨
    (stepRecv st it).2.1 = some Outcome.finished ∨
    ((stepRecv st it).2.1 = some Outcome.errored ∧
      (stepRecv st it).1 = [Event.invalidate]) ∨
    (stepRecv st it).2.1 = some Outcome.closed := by
  have hf := armSt_finalText st it
  have hp := procMsg_spec (armSt st it) it.msg
  unfold stepRecv
  rcases hd : (armSt st it).deadline with _ | d
  · simp only [hd]
    rcases hp with ⟨h1, h2 | ⟨s, hs, h2, h3⟩⟩ | h | ⟨h1, h2, h3⟩ | h
    · exact Or.inl ⟨h1, Or.inl ⟨h2.1, by rw [h2.2, hf]⟩⟩
    · exact Or.inl ⟨h1, Or.inr ⟨s, hs, h2, by rw [h3]⟩⟩
    · exact Or.inr (Or.inr (Or.inl h))
    · exact Or.inr (Or.inr (Or.inr (Or.inl ⟨h1, h2⟩)))
    · exact Or.inr (Or.inr (Or.inr (Or.inr h)))
  · simp only [hd]
    by_cases ht : d ≤ it.now
    · simp only [ht, if_true]
      refine Or.inr (Or.inl ⟨?_, ?_⟩)
      · simp
      · simp [hf]
    · simp only [ht, if_false]
      rcases hp with ⟨h1, h2 | ⟨s, hs, h2, h3⟩⟩ | h | ⟨h1, h2, h3⟩ | h
      · exact Or.inl ⟨h1, Or.inl ⟨h2.1, by rw [h2.2, hf]⟩⟩
      · exact Or.inl ⟨h1, Or.inr ⟨s, hs, h2, by rw [h3]⟩⟩
      · exact Or.inr (Or.inr (Or.inl h))
      · exact Or.inr (Or.inr (Or.inr (Or.inl ⟨h1, h2⟩)))
      · exact Or.inr (Or.inr (Or.inr (Or.inr h)))

theorem lastPartialText_nil (s0 : String) : lastPartialText s0 [] = s0 := rfl

theorem lastPartialText_onPartial (s0 s : String) (l : List Event) :
    lastPartialText s0 (Event.onPartial s :: l) = lastPartialText s l := rfl

theorem lastPartialText_onFinal (s0 s : String) (l : List Event) :
    lastPartialText s0 (Event.onFinal s :: l) = lastPartialText s0 l := rfl

/-- In a run of the receive loop that exits through the `ServiceError`
branch, the trace contains exactly one credential invalidation and no
`on_final`. -/
theorem runRecv_errored (script : List Iter) : ∀ st : RecvState,
    (runRecv st script).2 = Outcome.errored →
    (runRecv st script).1.count Event.invalidate = 1 ∧
    (runRecv st script).1.filter isFinal = [] := by
  induction script with
  | nil => intro st h; simp [runRecv] at h
  | cons it rest ih =>
    intro st h
    have spec := stepRecv_spec st it
    rcases hs : stepRecv st it with ⟨evs, oo, st'⟩
    rw [hs] at spec
    dsimp only at spec
    rcases oo with _ | o
    · simp only [runRecv, hs] at h ⊢
      rcases spec with ⟨_, hcont⟩ | ⟨hne, _⟩ | hne | ⟨hne, _⟩ | hne
      · have hrest := ih st' h
        rcases hcont with ⟨he, _⟩ | ⟨s, _, he, _⟩ <;> subst he <;>
          simp [List.count_append, List.filter_append, hrest.1, hrest.2, isFinal]
      all_goals simp at hne
    · simp only [runRecv, hs] at h ⊢
      subst h
      rcases spec with ⟨hne, _⟩ | ⟨hne, _⟩ | hne | ⟨_, he⟩ | hne
      · simp at hne
      · simp at hne
      · simp at hne
      · subst he; exact ⟨by rfl, by rfl⟩
      · simp at hne

theorem isFinal_onPartial (s : String) : isFinal (.onPartial s) = false := rfl

theorem isFinal_onFinal (s : String) : isFinal (.onFinal s) = true := rfl

/-- In a run of the receive loop that exits through the grace-timeout
branch, the `on_final` events of the trace are exactly one carrying the
last delivered partial (none when no non-empty partial was ever received),
and that `on_final` is the last event of the trace. -/
theorem runRecv_timedOut (script : List Iter) : ∀ st : RecvState,
    (runRecv st script).2 = Outcome.timedOut →
    ((runRecv st script).1.filter isFinal =
      (if lastPartialText st.finalText (runRecv st script).1 = "" then []
       else [Event.onFinal (lastPartialText st.finalText (runRecv st script).1)])) ∧
    (∀ i s, (runRecv st script).1[i]? = some (Event.onFinal s) →
      i + 1 = (runRecv st script).1.length) := by
  induction script with
  | nil => intro st h; simp [runRecv] at h
  | cons it rest ih =>
    intro st h
    have spec := stepRecv_spec st it
    rcases hs : stepRecv st it with ⟨evs, oo, st'⟩
    rw [hs] at spec
    dsimp only at spec
    rcases oo with _ | o
    · simp only [runRecv, hs] at h ⊢
      rcases spec with ⟨_, hcont⟩ | ⟨hne, _⟩ | hne | ⟨hne, _⟩ | hne
      · have hrest := ih st' h
        rcases hcont with ⟨he, hft⟩ | ⟨s, hsne, he, hft⟩
        · subst he
          simp only [List.nil_append]
          rw [← hft]
          exact hrest
        · subst he
          constructor
          · simp only [List.singleton_append, List.filter_cons, isFinal_onPartial,
              Bool.false_eq_true, if_false, lastPartialText_onPartial]
            rw [← hft]
            exact hrest.1
          · intro i s' hget
            cases i with
            | zero =>
              simp only [List.singleton_append, List.getElem?_cons_zero] at hget
              exact absurd hget (by simp)
            | succ i =>
              simp only [List.singleton_append, List.getElem?_cons_succ] at hget
              have := hrest.2 i s' hget
              simp only [List.singleton_append, List.length_cons]
              omega
      all_goals simp at hne
    · simp only [runRecv, hs] at h ⊢
      subst h
      rcases spec with ⟨hne, _⟩ | ⟨_, he⟩ | hne | ⟨hne, _⟩ | hne
      · simp at hne
      · subst he
        by_cases hft : st.finalText = ""
        · simp [hft, lastPartialText_nil]
        · constructor
          · simp [hft, lastPartialText_onFinal, lastPartialText_nil, isFinal_onFinal]
          · intro i s' hget
            simp only [hft, ne_eq, not_false_iff, if_true] at hget ⊢
            cases i with
            | zero => simp
            | succ i => simp at hget
      · simp at hne
      · simp at hne
      · simp at hne

/-! ## Claims C1, C2, C4 -/

/-- C1 (amended): if the inbound receiver exits through the branch for a
frame with empty `event` and nonzero `code`, then exactly one
`clear_cached_cookies` call is made and `on_final` is never invoked — but
`run_asr_session` then returns `Ok(())`, not an error. -/
theorem C1_service_error_invalidates_once_but_returns_ok (script : List Iter)
    (h : (runRecvSession script).2 = Outcome.errored) :
    (runRecvSession script).1.count Event.invalidate = 1 ∧
    (runRecvSession script).1.filter isFinal = [] ∧
    (runSession script).2 = Except.ok () :=
  ⟨(runRecv_errored script ⟨"", none⟩ h).1,
   (runRecv_errored script ⟨"", none⟩ h).2, rfl⟩

/-- C1 counterexample: on a concrete error frame (`event` empty, `code`
45000002) the receive loop makes the one invalidation and stops, but the
value `run_asr_session` returns is `Ok(())` — the session does not
terminate with an error result as the claim states. -/
theorem C1_counterexample_session_result_is_ok :
    (runSession errScript).1 = ([Event.invalidate], Outcome.errored) ∧
    (runSession errScript).2 = Except.ok () :=
  ⟨by decide, rfl⟩

/-- Witness for C1 at the concrete error script. -/
theorem C1_witness :
    (runRecvSession errScript).1.count Event.invalidate = 1 ∧
    (runRecvSession errScript).1.filter isFinal = [] ∧
    (runSession errScript).2 = Except.ok () :=
  C1_service_error_invalidates_once_but_returns_ok errScript (by decide)

/-- C2 (confirmed): if the receive loop exits through the grace-timeout
branch (stop observed, no finish event before the 1 s deadline), then
`on_final` fires exactly once, carrying the last non-empty partial (and not
at all when no non-empty partial was received), and no callback occurs
after it: any `on_final` is the last event of the trace. -/
theorem C2_timeout_finalizes_last_partial_once (script : List Iter)
    (h : (runRecvSession script).2 = Outcome.timedOut) :
    ((runRecvSession script).1.filter isFinal =
      (if lastPartialText "" (runRecvSession script).1 = "" then []
       else [Event.onFinal (lastPartialText "" (runRecvSession script).1)])) ∧
    (∀ i s, (runRecvSession script).1[i]? = some (Event.onFinal s) →
      i + 1 = (runRecvSession script).1.length) :=
  runRecv_timedOut script ⟨"", none⟩ h

/-- Witness for C2: a partial "hi" arrives, stop is observed at 50 ms, and
the deadline (1050 ms) passes with no finish event. -/
theorem C2_witness :
    ((runRecvSession [⟨0, false, some (.text (some ⟨some "result", some "hi", none, none⟩))⟩,
        ⟨50, true, none⟩, ⟨1200, true, none⟩]).1.filter isFinal =
      (if lastPartialText ""
            (runRecvSession [⟨0, false, some (.text (some ⟨some "result", some "hi", none, none⟩))⟩,
              ⟨50, true, none⟩, ⟨1200, true, none⟩]).1 = "" then []
       else [Event.onFinal (lastPartialText ""
            (runRecvSession [⟨0, false, some (.text (some ⟨some "result", some "hi", none, none⟩))⟩,
              ⟨50, true, none⟩, ⟨1200, true, none⟩]).1)])) ∧
    (∀ i s,
      (runRecvSession [⟨0, false, some (.text (some ⟨some "result", some "hi", none, none⟩))⟩,
        ⟨50, true, none⟩, ⟨1200, true, none⟩]).1[i]? = some (Event.onFinal s) →
      i + 1 =
      (runRecvSession [⟨0, false, some (.text (some ⟨some "result", some "hi", none, none⟩))⟩,
        ⟨50, true, none⟩, ⟨1200, true, none⟩]).1.length) :=
  C2_timeout_finalizes_last_partial_once _ (by decide)

/-- C4 (confirmed): the scripted inbound sequence Partial("A"),
Partial("AB"), Finish drives exactly on_partial("A"), on_partial("AB"),
on_final("AB") in that order, after which the session terminates
successfully; moreover every non-empty partial overwrites (never appends
to) the stored transcript, and empty partial texts are ignored. -/
theorem C4_scripted_partials_then_finish :
    runRecvSession scriptC4 =
      ([Event.onPartial "A", Event.onPartial "AB", Event.onFinal "AB"], Outcome.finished) ∧
    (runSession scriptC4).2 = Except.ok () ∧
    (∀ (st : RecvState) (f : Frame) (s : String),
      f.event = some "result" → f.resultText = some s → s ≠ "" →
      procMsg st (some (.text (some f))) =
        ([Event.onPartial s], none, { st with finalText := s })) ∧
    (∀ (st : RecvState) (f : Frame),
      f.event = some "result" → f.resultText = some "" →
      procMsg st (some (.text (some f))) = ([], none, st)) := by
  refine ⟨by decide, rfl, ?_, ?_⟩
  · intro st f s h1 h2 h3
    simp [procMsg, h1, h2, h3]
  · intro st f h1 h2
    simp [procMsg, h1, h2]

/-- Witness for C4: a non-empty partial "AB" replaces the stored "A"
(rather than appending), leaving state "AB". -/
theorem C4_witness :
    procMsg ⟨"A", none⟩ (some (.text (some ⟨some "result", some "AB", none, none⟩))) =
      ([Event.onPartial "AB"], none, ⟨"AB", none⟩) :=
  C4_scripted_partials_then_finish.2.2.1 ⟨"A", none⟩
    ⟨some "result", some "AB", none, none⟩ "AB" rfl rfl (by decide)

/-! ## Claim C5: capture chunking -/

theorem drainAux_spec (fuel : ℕ) : ∀ buf : List ℤ, buf.length ≤ fuel →
    (∀ c ∈ (drainAux fuel buf).1, c.length = CHUNK_SIZE) ∧
    (drainAux fuel buf).2.length < CHUNK_SIZE := by
  induction fuel with
  | zero =>
    intro buf h
    have hb : buf = [] := List.eq_nil_of_length_eq_zero (Nat.le_zero.mp h)
    subst hb
    exact ⟨by intro c hc; simp [drainAux] at hc, by simp [drainAux, CHUNK_SIZE]⟩
  | succ f ih =>
    intro buf h
    by_cases hc : CHUNK_SIZE ≤ buf.length
    · have hdrop : (buf.drop CHUNK_SIZE).length ≤ f := by
        simp only [List.length_drop]
        have : (4096:ℕ) = CHUNK_SIZE := rfl
        omega
      obtain ⟨ih1, ih2⟩ := ih (buf.drop CHUNK_SIZE) hdrop
      unfold drainAux
      simp only [hc, if_true]
      refine ⟨?_, ih2⟩
      intro c hcm
      rcases List.mem_cons.mp hcm with hce | hcm'
      · subst hce
        simp only [List.length_take]
        omega
      · exact ih1 c hcm'
    · unfold drainAux
      simp only [hc, if_false]
      exact ⟨by intro c hcm; simp at hcm, by omega⟩

theorem drainChunks_spec (buf : List ℤ) :
    (∀ c ∈ (drainChunks buf).1, c.length = CHUNK_SIZE) ∧
    (drainChunks buf).2.length < CHUNK_SIZE :=
  drainAux_spec buf.length buf le_rfl

theorem captureFold_spec (packets : List (List ℤ)) :
    ∀ acc : List (List ℤ) × List ℤ,
    (∀ c ∈ acc.1, c.length = CHUNK_SIZE) →
    (∀ c ∈ (packets.foldl
        (fun acc pkt =>
          let r := processPacket acc.2 pkt
          (acc.1 ++ r.1, r.2)) acc).1, c.length = CHUNK_SIZE) ∧
    (packets.foldl
        (fun acc pkt =>
          let r := processPacket acc.2 pkt
          (acc.1 ++ r.1, r.2)) acc).2.length < CHUNK_SIZE ∨ packets = [] := by
  induction packets with
  | nil => intro acc h1; exact Or.inr rfl
  | cons pkt rest ih =>
    intro acc h1
    left
    have hstep : ∀ c ∈ (processPacket acc.2 pkt).1, c.length = CHUNK_SIZE :=
      (drainChunks_spec (acc.2 ++ pkt)).1
    have hacc' : ∀ c ∈ acc.1 ++ (processPacket acc.2 pkt).1, c.length = CHUNK_SIZE := by
      intro c hcm
      rcases List.mem_append.mp hcm with hm | hm
      · exact h1 c hm
      · exact hstep c hm
    rcases ih (acc.1 ++ (processPacket acc.2 pkt).1, (processPacket acc.2 pkt).2) hacc'
      with ⟨r1, r2⟩ | hnil
    · exact ⟨by simpa using r1, by simpa using r2⟩
    · subst hnil
      refine ⟨by simpa using hacc', ?_⟩
      simpa using (drainChunks_spec (acc.2 ++ pkt)).2

theorem toLEBytes_length (xs : List ℤ) : (toLEBytes xs).length = 2 * xs.length := by
  induction xs with
  | nil => rfl
  | cons x xs ih =>
    have hstep : toLEBytes (x :: xs) =
        [(x % 65536).toNat % 256, (x % 65536).toNat / 256] ++ toLEBytes xs := rfl
    rw [hstep, List.length_append, ih, List.length_cons, List.length_cons,
      List.length_cons, List.length_nil]
    omega

/-- C5 (confirmed): over any sequence of callback invocations, every chunk
emitted while capture is active holds exactly `CHUNK_SIZE` (4096) samples,
i.e. 8192 bytes; the accumulation buffer left at stop is strictly shorter
than a chunk, and the stop-flush appends exactly one final short chunk when
that buffer is non-empty and none when it is empty. -/
theorem C5_capture_chunk_invariant (packets : List (List ℤ)) :
    (∀ c ∈ (captureChunks packets).1,
      c.length = CHUNK_SIZE ∧ (toLEBytes c).length = 8192) ∧
    (captureChunks packets).2.length < CHUNK_SIZE ∧
    captureRun packets =
      (captureChunks packets).1 ++
        (if (captureChunks packets).2.isEmpty then [] else [(captureChunks packets).2]) := by
  have hmain := captureFold_spec packets ([], []) (by intro c hc; simp at hc)
  refine ⟨?_, ?_, rfl⟩
  · intro c hc
    have hlen : c.length = CHUNK_SIZE := by
      rcases hmain with ⟨h1, _⟩ | hnil
      · exact h1 c hc
      · subst hnil; simp [captureChunks] at hc
    refine ⟨hlen, ?_⟩
    rw [toLEBytes_length, hlen]
    rfl
  · rcases hmain with ⟨_, h2⟩ | hnil
    · exact h2
    · subst hnil; simp [captureChunks, CHUNK_SIZE]

/-- Witness for C5 at a concrete run: two short packets that accumulate to a
single flush chunk. -/
theorem C5_witness :
    (∀ c ∈ (captureChunks [[1, 2], [3]]).1,
      c.length = CHUNK_SIZE ∧ (toLEBytes c).length = 8192) ∧
    (captureChunks [[1, 2], [3]]).2.length < CHUNK_SIZE ∧
    captureRun [[1, 2], [3]] =
      (captureChunks [[1, 2], [3]]).1 ++
        (if (captureChunks [[1, 2], [3]]).2.isEmpty then []
         else [(captureChunks [[1, 2], [3]]).2]) :=
  C5_capture_chunk_invariant [[1, 2], [3]]

/-! ## Claim C8: multi-channel downmix -/

theorem chunksAux_nil (c : ℕ) (f : ℕ) : chunksAux c f [] = [] := by
  cases f <;> rfl

theorem chunksAux_fuel (c : ℕ) : ∀ f1 : ℕ, ∀ f2 : ℕ, ∀ data : List ℤ, 0 < c →
    data.length ≤ f1 → data.length ≤ f2 →
    chunksAux c f1 data = chunksAux c f2 data := by
  intro f1
  induction f1 with
  | zero =>
    intro f2 data _ h1 _
    have hd : data = [] := List.eq_nil_of_length_eq_zero (Nat.le_zero.mp h1)
    subst hd
    rw [chunksAux_nil, chunksAux_nil]
  | succ g ih =>
    intro f2 data hc h1 h2
    rcases data with _ | ⟨x, xs⟩
    · rw [chunksAux_nil, chunksAux_nil]
    rcases f2 with _ | h2'
    · simp at h2
    simp only [chunksAux]
    congr 1
    apply ih
    · exact hc
    · simp only [List.length_drop, List.length_cons]
      simp only [List.length_cons] at h1
      omega
    · simp only [List.length_drop, List.length_cons]
      simp only [List.length_cons] at h2
      omega

theorem listChunks_cons (c : ℕ) (hc : 0 < c) (x : ℤ) (xs : List ℤ) :
    listChunks c (x :: xs) = (x :: xs).take c :: listChunks c ((x :: xs).drop c) := by
  unfold listChunks
  simp only [List.length_cons, chunksAux]
  congr 1
  apply chunksAux_fuel c xs.length ((x :: xs).drop c).length _ hc
  · simp only [List.length_drop, List.length_cons]
    omega
  · exact le_rfl

theorem downmix_chunks (c : ℕ) (hc : 0 < c) : ∀ (n : ℕ) (data : List ℤ),
    data.length = n * c →
    (listChunks c data).length = n ∧
    ∀ i < n, (listChunks c data)[i]? = some ((data.drop (i * c)).take c) := by
  intro n
  induction n with
  | zero =>
    intro data hlen
    have hd : data = [] := List.eq_nil_of_length_eq_zero (by omega)
    subst hd
    exact ⟨by simp [listChunks, chunksAux_nil], by intro i hi; omega⟩
  | succ n ih =>
    intro data hlen
    rcases data with _ | ⟨x, xs⟩
    · simp only [List.length_nil] at hlen
      have hpos : 0 < (n + 1) * c := Nat.mul_pos (Nat.succ_pos n) hc
      omega
    rw [listChunks_cons c hc]
    have hlc : (x :: xs).length = n * c + c := by
      rw [hlen]; ring
    have hdl : ((x :: xs).drop c).length = n * c := by
      simp only [List.length_drop, hlc]
      omega
    obtain ⟨ihl, ihi⟩ := ih _ hdl
    constructor
    · simp [ihl]
    · intro i hi
      cases i with
      | zero => simp
      | succ i =>
        rw [List.getElem?_cons_succ, ihi i (by omega), List.drop_drop]
        congr 3
        ring

theorem wrapI16_eq_self (z : ℤ) (h1 : -32768 ≤ z) (h2 : z ≤ 32767) : wrapI16 z = z := by
  unfold wrapI16
  rw [Int.emod_eq_of_lt (by omega) (by omega)]
  omega

theorem list_sum_bounds (l : List ℤ) (lo hi : ℤ)
    (h : ∀ x ∈ l, lo ≤ x ∧ x ≤ hi) :
    lo * l.length ≤ l.sum ∧ l.sum ≤ hi * l.length := by
  induction l with
  | nil => simp
  | cons x xs ih =>
    have hx := h x (List.mem_cons_self x xs)
    have hxs := ih (fun y hy => h y (List.mem_cons_of_mem x hy))
    simp only [List.sum_cons, List.length_cons]
    constructor
    · have : lo * (xs.length + 1) = lo * xs.length + lo := by ring
      rw [Int.natCast_add, Int.natCast_one]
      nlinarith [hxs.1, hx.1]
    · rw [Int.natCast_add, Int.natCast_one]
      nlinarith [hxs.2, hx.2]

theorem tdiv_bounds (s : ℤ) (c : ℕ) (hc : 0 < c)
    (h1 : -32768 * c ≤ s) (h2 : s ≤ 32767 * c) :
    -32768 ≤ Int.tdiv s c ∧ Int.tdiv s c ≤ 32767 := by
  have hc' : (0:ℤ) < c := by exact_mod_cast hc
  rcases le_or_lt 0 s with hs | hs
  · rw [Int.tdiv_eq_ediv hs (by omega)]
    constructor
    · have := Int.ediv_nonneg hs (le_of_lt hc')
      omega
    · have hmono := Int.ediv_le_ediv hc' h2
      rwa [Int.mul_ediv_cancel 32767 (by omega)] at hmono
  · have hneg : s.tdiv c = -((-s).tdiv c) := by
      rw [← Int.neg_tdiv, neg_neg]
    rw [hneg, Int.tdiv_eq_ediv (by omega) (by omega)]
    have hmono := Int.ediv_le_ediv hc' (show -s ≤ 32768 * c by omega)
    rw [Int.mul_ediv_cancel 32768 (by omega)] at hmono
    have := Int.ediv_nonneg (show (0:ℤ) ≤ -s by omega) (le_of_lt hc')
    omega

/-- C8 (confirmed): downmixing `n` complete frames of `channels ≥ 1`
channels (input length `n * channels`) yields exactly `n` mono samples,
each the toward-zero-truncated integer average of its frame; for i16-range
inputs and at most `u16::MAX` channels the `i32` sum cannot overflow and the
final `as i16` cast is the identity. -/
theorem C8_downmix_truncated_average (channels : ℕ) (data : List ℤ) (n : ℕ)
    (hc : 1 ≤ channels) (hlen : data.length = n * channels) (hch : channels ≤ 65535)
    (hrange : ∀ x ∈ data, -32768 ≤ x ∧ x ≤ 32767) :
    (downmixMono channels data).length = n ∧
    ∀ i < n, (downmixMono channels data)[i]? =
      some (Int.tdiv ((data.drop (i * channels)).take channels).sum channels) := by
  by_cases h1 : 1 < channels
  · unfold downmixMono
    simp only [h1, if_true]
    obtain ⟨hl, hi⟩ := downmix_chunks channels (by omega) n data hlen
    constructor
    · rw [List.length_map]; exact hl
    · intro i hin
      rw [List.getElem?_map, hi i hin]
      refine congrArg some ?_
      show wrapI16 (Int.tdiv ((data.drop (i * channels)).take channels).sum channels) = _
      have hsub : ∀ x ∈ (data.drop (i * channels)).take channels,
          -32768 ≤ x ∧ x ≤ 32767 := by
        intro x hx
        exact hrange x (List.drop_subset _ _ (List.take_subset _ _ hx))
      have hlen' : ((data.drop (i * channels)).take channels).length ≤ channels := by
        simp only [List.length_take]
        omega
      obtain ⟨hs1, hs2⟩ := list_sum_bounds _ (-32768) 32767 hsub
      apply wrapI16_eq_self
      · have hcl : (-32768:ℤ) * channels ≤
            -32768 * ((data.drop (i * channels)).take channels).length := by
          have : (((data.drop (i * channels)).take channels).length : ℤ) ≤ channels := by
            exact_mod_cast hlen'
          nlinarith
        exact (tdiv_bounds _ channels (by omega) (by omega) (by nlinarith)).1
      · exact (tdiv_bounds _ channels (by omega) (by nlinarith) (by nlinarith)).2
  · have hc1 : channels = 1 := by omega
    subst hc1
    unfold downmixMono
    simp only [lt_irrefl, if_false]
    constructor
    · omega
    · intro i hin
      have hil : i < data.length := by omega
      rw [List.getElem?_eq_getElem hil]
      have hdrop : data.drop (i * 1) = data[i] :: data.drop (i + 1) := by
        rw [Nat.mul_one]
        exact List.drop_eq_getElem_cons hil
      have htake : (data.drop (i * 1)).take 1 = [data[i]] := by
        rw [hdrop]; rfl
      rw [htake]
      simp [Int.tdiv_one]

/-- Witness for C8: two stereo frames `[1,2]` and `[3,4]` downmix to
`[1, 3]`. -/
theorem C8_witness :
    (downmixMono 2 [1, 2, 3, 4]).length = 2 ∧
    ∀ i < 2, (downmixMono 2 [1, 2, 3, 4])[i]? =
      some (Int.tdiv (([1, 2, 3, 4].drop (i * 2)).take 2).sum 2) :=
  C8_downmix_truncated_average 2 [1, 2, 3, 4] 2 (by decide) (by decide) (by decide)
    (by decide)

/-! ## Claims C6, C7, C9: the resampler entry point -/

/-- C6 (confirmed): for every input and every rate `r`, `resample` with
equal source and target rates returns the input unchanged, whatever the
selected algorithm and whatever the cached Sinc state. -/
theorem C6_resample_equal_rates_identity {S : Type} (oracle : SincOracle S)
    (method : ResampleMethod) (guard : Option (SincState S))
    (input : List ℤ) (r : ℕ) :
    (resample oracle method guard input r r).1 = input := by
  simp [resample]

/-- C7 (confirmed): for distinct rates, linear resampling of a single-sample
input returns that sample unchanged. -/
theorem C7_single_sample_unchanged (input : List ℤ) (from_rate to_rate : ℕ)
    (h1 : input.length = 1) (hne : from_rate ≠ to_rate) :
    resample_linear input from_rate to_rate = input := by
  unfold resample_linear
  rw [h1]
  simp

/-- Witness for C7 at the concrete single sample `[7]`, 16 kHz → 48 kHz. -/
theorem C7_witness : resample_linear [7] 16000 48000 = [7] :=
  C7_single_sample_unchanged [7] 16000 48000 rfl (by decide)

/-- C9 (confirmed): when the Sinc path fails internally — the (needed)
construction of the resampler errors, or processing errors, or the
defensive arm finds no resampler — `resample` returns exactly
`resample_linear` applied to the same input and rates; no error reaches the
caller (the function's result type carries no error component, mirroring
the Rust signature `fn resample(..) -> Vec<i16>`). -/
theorem C9_sinc_failure_falls_back_to_linear {S : Type} (oracle : SincOracle S)
    (guard : Option (SincState S)) (input : List ℤ) (from_rate to_rate : ℕ)
    (hne : from_rate ≠ to_rate) (hinput : input.isEmpty = false) :
    (∀ e, afterCreate oracle guard from_rate to_rate (max input.length 1024) =
        Except.error e →
      (resample oracle .Sinc guard input from_rate to_rate).1 =
        resample_linear input from_rate to_rate) ∧
    (∀ r e, afterCreate oracle guard from_rate to_rate (max input.length 1024) =
        Except.ok (some r) →
      oracle.process r.state input = Except.error e →
      (resample oracle .Sinc guard input from_rate to_rate).1 =
        resample_linear input from_rate to_rate) ∧
    (afterCreate oracle guard from_rate to_rate (max input.length 1024) =
        Except.ok none →
      (resample oracle .Sinc guard input from_rate to_rate).1 =
        resample_linear input from_rate to_rate) := by
  refine ⟨?_, ?_, ?_⟩
  · intro e he
    simp [resample, hne, resample_sinc, hinput, he]
  · intro r e hok hpe
    simp [resample, hne, resample_sinc, hinput, hok, hpe]
  · intro hok
    simp [resample, hne, resample_sinc, hinput, hok]

/-- Witness for C9: a Sinc oracle whose construction always fails makes
`resample` produce the linear result. -/
theorem C9_witness :
    (resample (⟨fun _ _ _ => Except.error "construction failed",
        fun s _ => Except.ok (s, [])⟩ : SincOracle Unit) .Sinc none [1, 2, 3] 48000 16000).1 =
      resample_linear [1, 2, 3] 48000 16000 :=
  (C9_sinc_failure_falls_back_to_linear _ none [1, 2, 3] 48000 16000
    (by decide) (by decide)).1 "construction failed" rfl

/-! ## Properties of the binary64 rounding model -/

theorem two_zpow_pos (d : ℤ) : (0:ℚ) < 2 ^ d := zpow_pos (by norm_num) d

theorem ilog2q_spec (q : ℚ) (hq : 0 < q) :
    (2:ℚ) ^ ilog2q q ≤ q ∧ q < 2 ^ (ilog2q q + 1) := by
  constructor
  · have h := Int.zpow_log_le_self (show (1:ℕ) < 2 by norm_num) hq
    simpa [ilog2q] using h
  · have h := Int.lt_zpow_succ_log_self (show (1:ℕ) < 2 by norm_num) q
    simpa [ilog2q] using h

theorem ilog2q_unique (q : ℚ) (hq : 0 < q) (d : ℤ)
    (h1 : (2:ℚ) ^ d ≤ q) (h2 : q < 2 ^ (d + 1)) : ilog2q q = d := by
  obtain ⟨l1, l2⟩ := ilog2q_spec q hq
  by_contra hne
  rcases lt_or_gt_of_ne hne with hlt | hgt
  · have h3 : (2:ℚ) ^ (ilog2q q + 1) ≤ 2 ^ d :=
      zpow_le_zpow_right₀ (by norm_num) (by omega)
    linarith
  · have h3 : (2:ℚ) ^ (d + 1) ≤ 2 ^ ilog2q q :=
      zpow_le_zpow_right₀ (by norm_num) (by omega)
    linarith

theorem s_bounds (q : ℚ) (hq : 0 < q) :
    (2:ℚ) ^ (52:ℤ) ≤ q * 2 ^ (52 - ilog2q q) ∧
    q * 2 ^ (52 - ilog2q q) < 2 ^ (53:ℤ) := by
  obtain ⟨l1, l2⟩ := ilog2q_spec q hq
  have h2ne : (2:ℚ) ≠ 0 := by norm_num
  have hp := two_zpow_pos (52 - ilog2q q)
  constructor
  · have heq : (2:ℚ) ^ (52:ℤ) = 2 ^ ilog2q q * 2 ^ (52 - ilog2q q) := by
      rw [← zpow_add₀ h2ne]
      congr 1
      ring
    rw [heq]
    exact mul_le_mul_of_nonneg_right l1 (le_of_lt hp)
  · have heq : (2:ℚ) ^ (53:ℤ) = 2 ^ (ilog2q q + 1) * 2 ^ (52 - ilog2q q) := by
      rw [← zpow_add₀ h2ne]
      congr 1
      ring
    rw [heq]
    exact mul_lt_mul_of_pos_right l2 hp

theorem cast_pow52 : ((2 ^ 52 : ℤ) : ℚ) = (2:ℚ) ^ (52:ℤ) := by norm_num

theorem cast_pow53 : ((2 ^ 53 : ℤ) : ℚ) = (2:ℚ) ^ (53:ℤ) := by norm_num

theorem floor_s_bounds (q : ℚ) (hq : 0 < q) :
    2 ^ 52 ≤ ⌊q * 2 ^ (52 - ilog2q q)⌋ ∧ ⌊q * 2 ^ (52 - ilog2q q)⌋ < 2 ^ 53 := by
  obtain ⟨h1, h2⟩ := s_bounds q hq
  constructor
  · rw [Int.le_floor, cast_pow52]
    exact h1
  · have hf := Int.floor_le (q * 2 ^ (52 - ilog2q q))
    have : (⌊q * 2 ^ (52 - ilog2q q)⌋ : ℚ) < ((2 ^ 53 : ℤ) : ℚ) := by
      rw [cast_pow53]
      linarith
    exact_mod_cast this

theorem halfEven_mem (n : ℤ) (r : ℚ) : halfEven n r = n ∨ halfEven n r = n + 1 := by
  unfold halfEven
  split_ifs <;> simp

theorem round_mono (s t : ℚ) (h : s ≤ t) :
    halfEven ⌊s⌋ (s - ⌊s⌋) ≤ halfEven ⌊t⌋ (t - ⌊t⌋) := by
  rcases lt_or_eq_of_le (Int.floor_le_floor h) with hf | hf
  · rcases halfEven_mem ⌊s⌋ (s - ⌊s⌋) with h1 | h1 <;>
      rcases halfEven_mem ⌊t⌋ (t - ⌊t⌋) with h2 | h2 <;> omega
  · have hcast : ((⌊s⌋ : ℤ) : ℚ) = ⌊t⌋ := by exact_mod_cast hf
    have hst : s - ⌊s⌋ ≤ t - ⌊t⌋ := by
      rw [hcast] at *
      linarith
    unfold halfEven
    rw [hf]
    split_ifs <;> first | omega | linarith

theorem rndPos_def (q : ℚ) :
    rndPos q = (halfEven ⌊q * 2 ^ (52 - ilog2q q)⌋
      (q * 2 ^ (52 - ilog2q q) - ⌊q * 2 ^ (52 - ilog2q q)⌋) : ℚ) *
        2 ^ (ilog2q q - 52) := rfl

theorem rndPos_bounds (q : ℚ) (hq : 0 < q) :
    (2:ℚ) ^ ilog2q q ≤ rndPos q ∧ rndPos q ≤ 2 ^ (ilog2q q + 1) := by
  rw [rndPos_def]
  obtain ⟨f1, f2⟩ := floor_s_bounds q hq
  have h2ne : (2:ℚ) ≠ 0 := by norm_num
  have hp := two_zpow_pos (ilog2q q - 52)
  have hmlo : (2:ℚ) ^ (52:ℤ) ≤
      (halfEven ⌊q * 2 ^ (52 - ilog2q q)⌋
        (q * 2 ^ (52 - ilog2q q) - ⌊q * 2 ^ (52 - ilog2q q)⌋) : ℚ) := by
    rcases halfEven_mem ⌊q * 2 ^ (52 - ilog2q q)⌋
        (q * 2 ^ (52 - ilog2q q) - ⌊q * 2 ^ (52 - ilog2q q)⌋) with hm | hm <;>
      rw [hm] <;> rw [← cast_pow52] <;> exact_mod_cast (by omega : (2^52:ℤ) ≤ _)
  have hmhi :
      (halfEven ⌊q * 2 ^ (52 - ilog2q q)⌋
        (q * 2 ^ (52 - ilog2q q) - ⌊q * 2 ^ (52 - ilog2q q)⌋) : ℚ) ≤ (2:ℚ) ^ (53:ℤ) := by
    rcases halfEven_mem ⌊q * 2 ^ (52 - ilog2q q)⌋
        (q * 2 ^ (52 - ilog2q q) - ⌊q * 2 ^ (52 - ilog2q q)⌋) with hm | hm <;>
      rw [hm] <;> rw [← cast_pow53] <;> exact_mod_cast (by omega : _ ≤ (2^53:ℤ))
  constructor
  · have heq : (2:ℚ) ^ ilog2q q = 2 ^ (52:ℤ) * 2 ^ (ilog2q q - 52) := by
      rw [← zpow_add₀ h2ne]
      congr 1
      ring
    rw [heq]
    exact mul_le_mul_of_nonneg_right hmlo (le_of_lt hp)
  · have heq : (2:ℚ) ^ (ilog2q q + 1) = 2 ^ (53:ℤ) * 2 ^ (ilog2q q - 52) := by
      rw [← zpow_add₀ h2ne]
      congr 1
      ring
    rw [heq]
    exact mul_le_mul_of_nonneg_right hmhi (le_of_lt hp)

theorem rndPos_pos (q : ℚ) (hq : 0 < q) : 0 < rndPos q :=
  lt_of_lt_of_le (two_zpow_pos (ilog2q q)) (rndPos_bounds q hq).1

theorem rnd_zero : rnd 0 = 0 := by
  unfold rnd
  simp

theorem rnd_of_pos {q : ℚ} (hq : 0 < q) : rnd q = rndPos q := by
  unfold rnd
  rw [if_neg (ne_of_gt hq), if_pos hq]

theorem rnd_of_neg {q : ℚ} (hq : q < 0) : rnd q = - rndPos (-q) := by
  unfold rnd
  rw [if_neg (ne_of_lt hq), if_neg (not_lt.mpr (le_of_lt hq))]

theorem rnd_nonneg {q : ℚ} (h : 0 ≤ q) : 0 ≤ rnd q := by
  rcases eq_or_lt_of_le h with h0 | h0
  · rw [← h0, rnd_zero]
  · rw [rnd_of_pos h0]
    exact le_of_lt (rndPos_pos q h0)

theorem rndPos_mono {a b : ℚ} (ha : 0 < a) (hab : a ≤ b) : rndPos a ≤ rndPos b := by
  have hb : 0 < b := lt_of_lt_of_le ha hab
  have hd : ilog2q a ≤ ilog2q b := Int.log_mono_right ha hab
  rcases eq_or_lt_of_le hd with hde | hdl
  · rw [rndPos_def, rndPos_def, ← hde]
    have hsm : a * 2 ^ (52 - ilog2q a) ≤ b * 2 ^ (52 - ilog2q a) :=
      mul_le_mul_of_nonneg_right hab (le_of_lt (two_zpow_pos _))
    have hr := round_mono _ _ hsm
    exact mul_le_mul_of_nonneg_right (by exact_mod_cast hr) (le_of_lt (two_zpow_pos _))
  · calc rndPos a ≤ 2 ^ (ilog2q a + 1) := (rndPos_bounds a ha).2
      _ ≤ 2 ^ ilog2q b := zpow_le_zpow_right₀ (by norm_num) (by omega)
      _ ≤ rndPos b := (rndPos_bounds b hb).1

theorem rnd_mono {a b : ℚ} (h : a ≤ b) : rnd a ≤ rnd b := by
  rcases lt_trichotomy a 0 with ha | ha | ha
  · rcases lt_trichotomy b 0 with hb | hb | hb
    · rw [rnd_of_neg ha, rnd_of_neg hb]
      have hm : rndPos (-b) ≤ rndPos (-a) := rndPos_mono (by linarith) (by linarith)
      linarith
    · rw [hb, rnd_zero, rnd_of_neg ha]
      have := rndPos_pos (-a) (by linarith)
      linarith
    · rw [rnd_of_neg ha, rnd_of_pos hb]
      have h1 := rndPos_pos (-a) (by linarith)
      have h2 := rndPos_pos b hb
      linarith
  · rw [ha, rnd_zero]
    exact rnd_nonneg (by linarith)
  · rw [rnd_of_pos ha, rnd_of_pos (lt_of_lt_of_le ha h)]
    exact rndPos_mono ha h

theorem isRepr_neg {q : ℚ} (h : isRepr q) : isRepr (-q) := by
  obtain ⟨m, e, hm, he⟩ := h
  exact ⟨-m, e, by simpa using hm, by rw [he]; push_cast; ring⟩

theorem rndPos_exact {q : ℚ} (hq : 0 < q) (h : isRepr q) : rndPos q = q := by
  obtain ⟨m, e, hm, hqe⟩ := h
  have h2ne : (2:ℚ) ≠ 0 := by norm_num
  obtain ⟨hs1, hs2⟩ := s_bounds q hq
  have hs : q * 2 ^ (52 - ilog2q q) = (m:ℚ) * 2 ^ (e + (52 - ilog2q q)) := by
    rw [hqe, zpow_add₀ h2ne, mul_assoc]
  have hz : ∃ z : ℤ, q * 2 ^ (52 - ilog2q q) = (z:ℚ) := by
    rcases le_or_lt 0 (e + (52 - ilog2q q)) with hc | hc
    · refine ⟨m * 2 ^ (e + (52 - ilog2q q)).toNat, ?_⟩
      rw [hs]
      push_cast
      rw [← zpow_natCast (2:ℚ) (e + (52 - ilog2q q)).toNat, Int.toNat_of_nonneg hc]
    · have hmp : (0:ℚ) < (m:ℚ) := by
        by_contra hm0
        push_neg at hm0
        have hqn : q ≤ 0 := by
          rw [hqe]
          exact mul_nonpos_of_nonpos_of_nonneg hm0 (le_of_lt (two_zpow_pos e))
        linarith
      have hmle : (m:ℚ) ≤ 2 ^ (53:ℤ) := by
        rw [← cast_pow53]
        have habs : (m:ℤ) ≤ 2 ^ 53 := le_trans (le_abs_self m) hm
        exact_mod_cast habs
      have h2c : (2:ℚ) ^ (e + (52 - ilog2q q)) ≤ 2 ^ (-1:ℤ) :=
        zpow_le_zpow_right₀ (by norm_num) (by omega)
      have hsle : q * 2 ^ (52 - ilog2q q) ≤ 2 ^ (52:ℤ) := by
        rw [hs]
        calc (m:ℚ) * 2 ^ (e + (52 - ilog2q q)) ≤ 2 ^ (53:ℤ) * 2 ^ (-1:ℤ) :=
              mul_le_mul hmle h2c (le_of_lt (two_zpow_pos _)) (le_of_lt (two_zpow_pos _))
          _ = 2 ^ (52:ℤ) := by
              rw [← zpow_add₀ h2ne]
              norm_num
      have hseq : q * 2 ^ (52 - ilog2q q) = 2 ^ (52:ℤ) := le_antisymm hsle hs1
      exact ⟨2 ^ 52, by rw [hseq, ← cast_pow52]⟩
  obtain ⟨z, hzeq⟩ := hz
  rw [rndPos_def, hzeq, Int.floor_intCast]
  have hzero : (z:ℚ) - (z:ℚ) = 0 := by ring
  rw [hzero]
  have hhe : halfEven z 0 = z := by
    unfold halfEven
    rw [if_pos (by norm_num)]
  rw [hhe]
  have hback : (z:ℚ) * 2 ^ (ilog2q q - 52) =
      q * 2 ^ (52 - ilog2q q) * 2 ^ (ilog2q q - 52) := by
    rw [hzeq]
  rw [hback, mul_assoc, ← zpow_add₀ h2ne]
  have he0 : (52 - ilog2q q) + (ilog2q q - 52) = 0 := by ring
  rw [he0, zpow_zero, mul_one]

theorem rnd_exact {q : ℚ} (h : isRepr q) : rnd q = q := by
  rcases lt_trichotomy q 0 with hq | hq | hq
  · rw [rnd_of_neg hq]
    have hrp : rndPos (-q) = -q := rndPos_exact (by linarith) (isRepr_neg h)
    rw [hrp]
    ring
  · rw [hq, rnd_zero]
  · rw [rnd_of_pos hq]
    exact rndPos_exact hq h

theorem rndPos_repr (q : ℚ) (hq : 0 < q) : isRepr (rndPos q) := by
  rw [rndPos_def]
  obtain ⟨f1, f2⟩ := floor_s_bounds q hq
  refine ⟨halfEven ⌊q * 2 ^ (52 - ilog2q q)⌋
    (q * 2 ^ (52 - ilog2q q) - ⌊q * 2 ^ (52 - ilog2q q)⌋), ilog2q q - 52, ?_, rfl⟩
  rcases halfEven_mem ⌊q * 2 ^ (52 - ilog2q q)⌋
      (q * 2 ^ (52 - ilog2q q) - ⌊q * 2 ^ (52 - ilog2q q)⌋) with hm | hm <;>
    rw [hm] <;> rw [abs_of_nonneg (by omega)] <;> omega

theorem rnd_repr (q : ℚ) : isRepr (rnd q) := by
  rcases lt_trichotomy q 0 with hq | hq | hq
  · rw [rnd_of_neg hq]
    exact isRepr_neg (rndPos_repr (-q) (by linarith))
  · rw [hq, rnd_zero]
    exact ⟨0, 0, by norm_num, by norm_num⟩
  · rw [rnd_of_pos hq]
    exact rndPos_repr q hq

theorem isRepr_intCast (n : ℤ) (h : |n| ≤ 2 ^ 53) : isRepr (n:ℚ) :=
  ⟨n, 0, h, by norm_num⟩

theorem rnd_intCast (n : ℤ) (h : |n| ≤ 2 ^ 53) : rnd (n:ℚ) = n :=
  rnd_exact (isRepr_intCast n h)

theorem rnd_natCast (n : ℕ) (h : n ≤ 2 ^ 53) : rnd (n:ℚ) = n := by
  have hc : ((n:ℤ):ℚ) = (n:ℚ) := by push_cast; rfl
  rw [← hc, rnd_intCast]
  rw [abs_of_nonneg (by positivity)]
  exact_mod_cast h

/-- Certificate-style evaluation of `rnd`: when the scaled mantissa lies in
`[n, n + 1/2)` the value rounds down to `n` ulps. -/
theorem rnd_eq_down (q : ℚ) (d n : ℤ) (hq : 0 < q)
    (hd1 : (2:ℚ) ^ d ≤ q) (hd2 : q < 2 ^ (d + 1))
    (hn1 : (n:ℚ) ≤ q * 2 ^ (52 - d)) (hn2 : q * 2 ^ (52 - d) < (n:ℚ) + 1/2) :
    rnd q = (n:ℚ) * 2 ^ (d - 52) := by
  have hdq := ilog2q_unique q hq d hd1 hd2
  rw [rnd_of_pos hq, rndPos_def, hdq]
  have hfl : ⌊q * 2 ^ (52 - d)⌋ = n := by
    rw [Int.floor_eq_iff]
    refine ⟨hn1, ?_⟩
    linarith
  rw [hfl]
  have hhe : halfEven n (q * 2 ^ (52 - d) - (n:ℚ)) = n := by
    unfold halfEven
    rw [if_pos (by linarith)]
  rw [hhe]

/-- Certificate-style evaluation of `rnd`: when the scaled mantissa lies in
`(n - 1/2, n]` the value rounds up to `n` ulps. -/
theorem rnd_eq_up (q : ℚ) (d n : ℤ) (hq : 0 < q)
    (hd1 : (2:ℚ) ^ d ≤ q) (hd2 : q < 2 ^ (d + 1))
    (hn1 : (n:ℚ) - 1/2 < q * 2 ^ (52 - d)) (hn2 : q * 2 ^ (52 - d) ≤ (n:ℚ)) :
    rnd q = (n:ℚ) * 2 ^ (d - 52) := by
  have hdq := ilog2q_unique q hq d hd1 hd2
  rw [rnd_of_pos hq, rndPos_def, hdq]
  rcases eq_or_lt_of_le hn2 with he | hlt
  · rw [he, Int.floor_intCast]
    have hzero : (n:ℚ) - (n:ℚ) = 0 := by ring
    rw [hzero]
    have hhe : halfEven n 0 = n := by
      unfold halfEven
      rw [if_pos (by norm_num)]
    rw [hhe]
  · have hfl : ⌊q * 2 ^ (52 - d)⌋ = n - 1 := by
      rw [Int.floor_eq_iff]
      push_cast
      constructor <;> linarith
    rw [hfl]
    have hhe : halfEven (n - 1) (q * 2 ^ (52 - d) - ((n - 1 : ℤ):ℚ)) = n := by
      unfold halfEven
      rw [if_neg (by push_cast; linarith), if_pos (by push_cast; linarith)]
      ring
    rw [hhe]

theorem f64toUsize_eval (v : ℚ) (k : ℕ) (h1 : (k:ℚ) ≤ v) (h2 : v < (k:ℚ) + 1)
    (h3 : k ≤ 2 ^ 64 - 1) : f64toUsize v = k := by
  unfold f64toUsize
  have hv0 : ¬ v < 0 := not_lt.mpr (le_trans (by positivity) h1)
  rw [if_neg hv0]
  have hfl : ⌊v⌋ = (k:ℤ) := by
    rw [Int.floor_eq_iff]
    refine ⟨by exact_mod_cast h1, ?_⟩
    push_cast
    exact h2
  rw [hfl]
  simp
  omega

/-! ## Claim C3: the output length of linear resampling -/

/-- The output of `resample_linear` on two or more samples has exactly
`new_len` elements: the `f64` computation `(len as f64 / ratio) as usize`. -/
theorem resample_linear_length (input : List ℤ) (A B : ℕ) (h : 2 ≤ input.length) :
    (resample_linear input A B).length = new_len input.length A B := by
  unfold resample_linear
  rw [if_neg (by omega), if_neg (by omega)]
  by_cases h0 : new_len input.length A B = 0
  · rw [if_pos h0, h0]
    rfl
  · rw [if_neg h0, List.length_map, List.length_range]

/-- C3 counterexample: 480 samples resampled from 48000 Hz to 44100 Hz yield
440 output samples, yet `floor(480·44100/48000) = 441`: the claimed length
formula fails because the `f64` quotient `480 / (48000.0/44100.0)` lands
just below 441 and the `as usize` cast truncates it.  (For one-sample
inputs the claim also fails: the input is returned unchanged.) -/
theorem C3_counterexample_length_mismatch :
    (resample_linear (List.replicate 480 0) 48000 44100).length = 440 ∧
    480 * 44100 / 48000 = 441 := by
  constructor
  · rw [resample_linear_length _ _ _ (by rw [List.length_replicate]; omega)]
    rw [List.length_replicate]
    unfold new_len ratio
    rw [rnd_natCast 48000 (by norm_num), rnd_natCast 44100 (by norm_num),
        rnd_natCast 480 (by norm_num)]
    have hratio : rnd (((48000:ℕ):ℚ) / ((44100:ℕ):ℚ)) =
        ((4901877145437275:ℤ):ℚ) * 2 ^ ((0:ℤ) - 52) :=
      rnd_eq_up _ 0 4901877145437275 (by norm_num) (by norm_num) (by norm_num)
        (by norm_num) (by norm_num)
    rw [hratio]
    have hlen : rnd (((480:ℕ):ℚ) / (((4901877145437275:ℤ):ℚ) * 2 ^ ((0:ℤ) - 52))) =
        ((7758154045587455:ℤ):ℚ) * 2 ^ ((8:ℤ) - 52) :=
      rnd_eq_down _ 8 7758154045587455 (by norm_num) (by norm_num) (by norm_num)
        (by norm_num) (by norm_num)
    rw [hlen]
    exact f64toUsize_eval _ 440 (by norm_num) (by norm_num) (by norm_num)
  · norm_num

/-- C3 (amended): for inputs of at least two samples the number of output
samples is exactly the `f64` computation `new_len` — `(N as f64 /
(A as f64 / B as f64)) as usize` — which agrees with `floor(N·B/A)` in the
exactly-representable cases; in particular 4800 samples at 48000 Hz →
16000 Hz yield exactly 1600 = floor(4800·16000/48000) samples, and repeated
calls with identical input and rates return identical output. -/
theorem C3_linear_length_formula (input : List ℤ) (A B : ℕ)
    (h2 : 2 ≤ input.length) (hAB : A ≠ B) :
    (resample_linear input A B).length = new_len input.length A B ∧
    (∀ input2 : List ℤ, input = input2 →
      resample_linear input A B = resample_linear input2 A B) ∧
    (resample_linear (List.replicate 4800 0) 48000 16000).length = 1600 ∧
    4800 * 16000 / 48000 = 1600 := by
  refine ⟨resample_linear_length input A B h2, ?_, ?_, by norm_num⟩
  · intro input2 he
    rw [he]
  · rw [resample_linear_length _ _ _ (by rw [List.length_replicate]; omega)]
    rw [List.length_replicate]
    unfold new_len ratio
    rw [rnd_natCast 48000 (by norm_num), rnd_natCast 16000 (by norm_num),
        rnd_natCast 4800 (by norm_num)]
    have hr3 : rnd (((48000:ℕ):ℚ) / ((16000:ℕ):ℚ)) = ((3:ℕ):ℚ) := by
      have hv : (((48000:ℕ):ℚ) / ((16000:ℕ):ℚ)) = ((3:ℕ):ℚ) := by norm_num
      rw [hv, rnd_natCast 3 (by norm_num)]
    rw [hr3]
    have hr1600 : rnd (((4800:ℕ):ℚ) / ((3:ℕ):ℚ)) = ((1600:ℕ):ℚ) := by
      have hv : (((4800:ℕ):ℚ) / ((3:ℕ):ℚ)) = ((1600:ℕ):ℚ) := by norm_num
      rw [hv, rnd_natCast 1600 (by norm_num)]
    rw [hr1600]
    exact f64toUsize_eval _ 1600 (by norm_num) (by norm_num) (by norm_num)

/-- Witness for C3 at a concrete two-sample input. -/
theorem C3_witness :
    (resample_linear [5, 9] 48000 16000).length = new_len 2 48000 16000 ∧
    (resample_linear (List.replicate 4800 0) 48000 16000).length = 1600 :=
  ⟨(C3_linear_length_formula [5, 9] 48000 16000 (by decide) (by decide)).1,
   (C3_linear_length_formula [5, 9] 48000 16000 (by decide) (by decide)).2.2.1⟩

/-! ## Claim C10: range preservation of the linear interpolation -/

/-- The fractional part of a nonnegative representable value is itself
representable (so the `src_pos - src_idx` subtraction in the interpolation
loop is exact). -/
theorem isRepr_fract {p : ℚ} (hp : 0 ≤ p) (h : isRepr p) : isRepr (p - ⌊p⌋) := by
  obtain ⟨m, e, hm, hpe⟩ := h
  have h2ne : (2:ℚ) ≠ 0 := by norm_num
  rcases le_or_lt 0 e with he | he
  · have hint : p = ((m * 2 ^ e.toNat : ℤ) : ℚ) := by
      rw [hpe]
      push_cast
      rw [← zpow_natCast (2:ℚ) e.toNat, Int.toNat_of_nonneg he]
    rw [hint, Int.floor_intCast]
    exact ⟨0, 0, by norm_num, by push_cast; ring⟩
  · by_cases hf : ⌊p⌋ = 0
    · rw [hf]
      push_cast
      rw [sub_zero]
      exact ⟨m, e, hm, hpe⟩
    · have hf1 : 1 ≤ ⌊p⌋ := by
        have h0 : 0 ≤ ⌊p⌋ := Int.floor_nonneg.mpr hp
        omega
      have hp1 : (1:ℚ) ≤ p := by exact_mod_cast Int.le_floor.mp hf1
      have hE : ((2:ℚ) ^ (-e).toNat) = 2 ^ (-e) := by
        rw [← zpow_natCast (2:ℚ) (-e).toNat, Int.toNat_of_nonneg (by omega)]
      have hzz : (2:ℚ) ^ e * 2 ^ (-e) = 1 := by
        rw [← zpow_add₀ h2ne]
        norm_num
      have hscale : p * 2 ^ (-e).toNat = (m:ℚ) := by
        rw [hE, hpe, mul_assoc, hzz, mul_one]
      have heq : (p - ⌊p⌋) * 2 ^ (-e).toNat = ((m - ⌊p⌋ * 2 ^ (-e).toNat : ℤ):ℚ) := by
        push_cast
        rw [sub_mul, hscale]
      have hfr0 : (0:ℚ) ≤ p - ⌊p⌋ := by linarith [Int.floor_le p]
      have hfr1 : p - ⌊p⌋ < 1 := by linarith [Int.lt_floor_add_one p]
      have hEpos : (0:ℚ) < 2 ^ (-e).toNat := by positivity
      have hm'0 : (0:ℚ) ≤ ((m - ⌊p⌋ * 2 ^ (-e).toNat : ℤ):ℚ) := by
        rw [← heq]
        exact mul_nonneg hfr0 (le_of_lt hEpos)
      have hm'lt : ((m - ⌊p⌋ * 2 ^ (-e).toNat : ℤ):ℚ) < 2 ^ (-e).toNat := by
        rw [← heq]
        calc (p - ⌊p⌋) * 2 ^ (-e).toNat < 1 * 2 ^ (-e).toNat :=
              mul_lt_mul_of_pos_right hfr1 hEpos
          _ = 2 ^ (-e).toNat := one_mul _
      have hMge : ((2:ℚ) ^ (-e).toNat) ≤ (m:ℚ) := by
        rw [← hscale]
        calc ((2:ℚ) ^ (-e).toNat) = 1 * 2 ^ (-e).toNat := (one_mul _).symm
          _ ≤ p * 2 ^ (-e).toNat := mul_le_mul_of_nonneg_right hp1 (le_of_lt hEpos)
      have hm'0z : 0 ≤ m - ⌊p⌋ * 2 ^ (-e).toNat := by exact_mod_cast hm'0
      have hm'ltz : m - ⌊p⌋ * 2 ^ (-e).toNat < 2 ^ (-e).toNat := by exact_mod_cast hm'lt
      have hMgez : (2:ℤ) ^ (-e).toNat ≤ m := by exact_mod_cast hMge
      refine ⟨m - ⌊p⌋ * 2 ^ (-e).toNat, e, ?_, ?_⟩
      · rw [abs_of_nonneg hm'0z]
        have hmabs : m ≤ 2 ^ 53 := le_trans (le_abs_self m) hm
        omega
      · have hexp : ((m - ⌊p⌋ * 2 ^ (-e).toNat : ℤ):ℚ) * 2 ^ e =
            (p - ⌊p⌋) * (2 ^ (-e).toNat * 2 ^ e) := by
          rw [← heq]
          ring
        rw [hexp, hE, ← zpow_add₀ h2ne]
        have he0 : -e + e = 0 := by ring
        rw [he0, zpow_zero, mul_one]

/-- A representable value at least `2^52` is an integer (so the
`src_idx as f64` round trip is exact for large positions). -/
theorem isRepr_integral {p : ℚ} (h : isRepr p) (hp : (2:ℚ) ^ (52:ℤ) ≤ p) :
    ∃ z : ℤ, p = (z:ℚ) := by
  obtain ⟨m, e, hm, hpe⟩ := h
  have h2ne : (2:ℚ) ≠ 0 := by norm_num
  rcases le_or_lt 0 e with he | he
  · refine ⟨m * 2 ^ e.toNat, ?_⟩
    rw [hpe]
    push_cast
    rw [← zpow_natCast (2:ℚ) e.toNat, Int.toNat_of_nonneg he]
  · have he1 : e ≤ -1 := by omega
    rcases eq_or_lt_of_le he1 with heq1 | hlt2
    · subst heq1
      have hhalf : (2:ℚ) ^ (-1:ℤ) = 1/2 := by norm_num
      have hm2 : (2:ℚ) ^ (53:ℤ) ≤ (m:ℚ) := by
        rw [hpe, hhalf] at hp
        have h52 : (2:ℚ) ^ (52:ℤ) = 4503599627370496 := by norm_num
        have h53 : (2:ℚ) ^ (53:ℤ) = 9007199254740992 := by norm_num
        rw [h52] at hp
        rw [h53]
        linarith
      have hmz : (2:ℤ) ^ 53 ≤ m := by
        have := hm2
        rw [← cast_pow53] at this
        exact_mod_cast this
      have hmeq : m = 2 ^ 53 := by
        have hmabs : m ≤ 2 ^ 53 := le_trans (le_abs_self m) hm
        omega
      refine ⟨2 ^ 52, ?_⟩
      rw [hpe, hmeq]
      push_cast
      norm_num
    · exfalso
      have hmle : (m:ℚ) ≤ 2 ^ (53:ℤ) := by
        rw [← cast_pow53]
        exact_mod_cast le_trans (le_abs_self m) hm
      have h2e : (2:ℚ) ^ e ≤ 2 ^ (-2:ℤ) := zpow_le_zpow_right₀ (by norm_num) (by omega)
      have hple : p ≤ 2 ^ (53:ℤ) * 2 ^ (-2:ℤ) := by
        rw [hpe]
        exact mul_le_mul hmle h2e (le_of_lt (two_zpow_pos e)) (by positivity)
      have hsmall : (2:ℚ) ^ (53:ℤ) * 2 ^ (-2:ℤ) < 2 ^ (52:ℤ) := by norm_num
      linarith

/-- Without saturation (`v < 2^64`), the `as usize` cast is the floor. -/
theorem f64toUsize_floor (p : ℚ) (hp : 0 ≤ p) (hlt : p < 2 ^ (64:ℤ)) :
    f64toUsize p = ⌊p⌋.toNat := by
  unfold f64toUsize
  rw [if_neg (not_lt.mpr hp)]
  have hfl64 : ⌊p⌋ < 2 ^ 64 := by
    have h1 : (⌊p⌋:ℚ) ≤ p := Int.floor_le p
    have h2 : ((2 ^ 64 : ℤ):ℚ) = (2:ℚ) ^ (64:ℤ) := by norm_num
    have : (⌊p⌋:ℚ) < ((2 ^ 64 : ℤ):ℚ) := by rw [h2]; linarith
    exact_mod_cast this
  have hfl0 : 0 ≤ ⌊p⌋ := Int.floor_nonneg.mpr hp
  rw [min_eq_left (by omega)]

/-- Evaluation of `frac = src_pos - (src_idx as f64)` for a representable
nonnegative `src_pos` below the saturation threshold: it is exactly the
fractional part of `src_pos`, a value in `[0, 1)`. -/
theorem frac_eval (p : ℚ) (hrep : isRepr p) (hp : 0 ≤ p) (hlt : p < 2 ^ (64:ℤ)) :
    rnd (p - rnd ((f64toUsize p : ℕ):ℚ)) = p - ⌊p⌋ ∧
    0 ≤ p - ⌊p⌋ ∧ p - ⌊p⌋ < 1 := by
  have hfl0 : 0 ≤ ⌊p⌋ := Int.floor_nonneg.mpr hp
  have hcast : ((f64toUsize p : ℕ):ℚ) = ((⌊p⌋:ℤ):ℚ) := by
    rw [f64toUsize_floor p hp hlt]
    have hnz : ((⌊p⌋.toNat : ℕ) : ℚ) = ((⌊p⌋.toNat : ℤ) : ℚ) := by push_cast; rfl
    rw [hnz, Int.toNat_of_nonneg hfl0]
  rw [hcast]
  refine ⟨?_, by linarith [Int.floor_le p], by linarith [Int.lt_floor_add_one p]⟩
  rcases lt_or_le p ((2:ℚ) ^ (52:ℤ)) with hsmall | hbig
  · have hfl52 : ⌊p⌋ < 2 ^ 52 := by
      have h1 : (⌊p⌋:ℚ) ≤ p := Int.floor_le p
      have : (⌊p⌋:ℚ) < ((2 ^ 52 : ℤ):ℚ) := by rw [cast_pow52]; linarith
      exact_mod_cast this
    have hrfl : rnd ((⌊p⌋:ℤ):ℚ) = ((⌊p⌋:ℤ):ℚ) :=
      rnd_intCast ⌊p⌋ (by rw [abs_of_nonneg hfl0]; omega)
    rw [hrfl]
    exact rnd_exact (isRepr_fract hp hrep)
  · obtain ⟨z, hz⟩ := isRepr_integral hrep hbig
    have hflz : ⌊p⌋ = z := by rw [hz, Int.floor_intCast]
    rw [hflz, ← hz, rnd_exact hrep, sub_self, rnd_zero]

theorem qtrunc_between (z w : ℤ) (v : ℚ) (h1 : (z:ℚ) ≤ v) (h2 : v ≤ (w:ℚ)) :
    z ≤ qtrunc v ∧ qtrunc v ≤ w := by
  unfold qtrunc
  split_ifs with h
  · refine ⟨Int.le_floor.mpr h1, ?_⟩
    have hle : (⌊v⌋:ℚ) ≤ (w:ℚ) := le_trans (Int.floor_le v) h2
    exact_mod_cast hle
  · refine ⟨?_, Int.ceil_le.mpr h2⟩
    have hle : (z:ℚ) ≤ ((⌈v⌉:ℤ):ℚ) := le_trans h1 (Int.le_ceil v)
    exact_mod_cast hle

/-- The rounded linear-interpolation step `(y0 + (y1 - y0) * frac) as i16`
stays between its two anchor samples for `frac ∈ [0, 1)`: every `f64`
operation rounds monotonically between exactly-representable endpoints. -/
theorem interp_bounds (y0 y1 : ℤ) (f : ℚ)
    (h0lo : -32768 ≤ y0) (h0hi : y0 ≤ 32767)
    (h1lo : -32768 ≤ y1) (h1hi : y1 ≤ 32767)
    (hf0 : 0 ≤ f) (hf1 : f < 1) :
    min y0 y1 ≤ f64toI16 (rnd ((y0:ℚ) + rnd (rnd ((y1:ℚ) - (y0:ℚ)) * f))) ∧
    f64toI16 (rnd ((y0:ℚ) + rnd (rnd ((y1:ℚ) - (y0:ℚ)) * f))) ≤ max y0 y1 := by
  have habsd : |y1 - y0| ≤ 2 ^ 53 := by rw [abs_le]; omega
  have ht1 : rnd ((y1:ℚ) - (y0:ℚ)) = ((y1 - y0 : ℤ):ℚ) := by
    have hc : ((y1:ℚ) - (y0:ℚ)) = ((y1 - y0 : ℤ):ℚ) := by push_cast; ring
    rw [hc, rnd_intCast _ habsd]
  rw [ht1]
  have hy0exact : rnd ((y0:ℚ)) = (y0:ℚ) := rnd_intCast y0 (by rw [abs_le]; omega)
  have hy1exact : rnd ((y1:ℚ)) = (y1:ℚ) := rnd_intCast y1 (by rw [abs_le]; omega)
  have ht2 : ((min y0 y1 : ℤ):ℚ) ≤ rnd ((y0:ℚ) + rnd (((y1 - y0 : ℤ):ℚ) * f)) ∧
      rnd ((y0:ℚ) + rnd (((y1 - y0 : ℤ):ℚ) * f)) ≤ ((max y0 y1 : ℤ):ℚ) := by
    rcases le_or_lt y0 y1 with hc | hc
    · have hd0 : (0:ℚ) ≤ ((y1 - y0 : ℤ):ℚ) := by
        have : (0:ℤ) ≤ y1 - y0 := by omega
        exact_mod_cast this
      have hpge : (0:ℚ) ≤ ((y1 - y0 : ℤ):ℚ) * f := mul_nonneg hd0 hf0
      have hple : ((y1 - y0 : ℤ):ℚ) * f ≤ ((y1 - y0 : ℤ):ℚ) := by nlinarith
      have ht2lo : (0:ℚ) ≤ rnd (((y1 - y0 : ℤ):ℚ) * f) := by
        calc (0:ℚ) = rnd 0 := rnd_zero.symm
          _ ≤ rnd (((y1 - y0 : ℤ):ℚ) * f) := rnd_mono hpge
      have ht2hi : rnd (((y1 - y0 : ℤ):ℚ) * f) ≤ ((y1 - y0 : ℤ):ℚ) := by
        calc rnd (((y1 - y0 : ℤ):ℚ) * f) ≤ rnd ((y1 - y0 : ℤ):ℚ) := rnd_mono hple
          _ = ((y1 - y0 : ℤ):ℚ) := rnd_intCast _ habsd
      have hmin : min y0 y1 = y0 := min_eq_left hc
      have hmax : max y0 y1 = y1 := max_eq_right hc
      rw [hmin, hmax]
      constructor
      · calc ((y0:ℤ):ℚ) = rnd ((y0:ℚ)) := hy0exact.symm
          _ ≤ rnd ((y0:ℚ) + rnd (((y1 - y0 : ℤ):ℚ) * f)) := rnd_mono (by linarith)
      · calc rnd ((y0:ℚ) + rnd (((y1 - y0 : ℤ):ℚ) * f)) ≤ rnd ((y1:ℚ)) := by
              apply rnd_mono
              push_cast at ht2hi ⊢
              linarith
          _ = ((y1:ℤ):ℚ) := hy1exact
    · have hd0 : ((y1 - y0 : ℤ):ℚ) ≤ 0 := by
        have : y1 - y0 ≤ (0:ℤ) := by omega
        exact_mod_cast this
      have hpge : ((y1 - y0 : ℤ):ℚ) * f ≤ 0 := mul_nonpos_of_nonpos_of_nonneg hd0 hf0
      have hple : ((y1 - y0 : ℤ):ℚ) ≤ ((y1 - y0 : ℤ):ℚ) * f := by nlinarith
      have ht2hi : rnd (((y1 - y0 : ℤ):ℚ) * f) ≤ 0 := by
        calc rnd (((y1 - y0 : ℤ):ℚ) * f) ≤ rnd 0 := rnd_mono hpge
          _ = 0 := rnd_zero
      have ht2lo : ((y1 - y0 : ℤ):ℚ) ≤ rnd (((y1 - y0 : ℤ):ℚ) * f) := by
        calc ((y1 - y0 : ℤ):ℚ) = rnd ((y1 - y0 : ℤ):ℚ) := (rnd_intCast _ habsd).symm
          _ ≤ rnd (((y1 - y0 : ℤ):ℚ) * f) := rnd_mono hple
      have hmin : min y0 y1 = y1 := min_eq_right (le_of_lt hc)
      have hmax : max y0 y1 = y0 := max_eq_left (le_of_lt hc)
      rw [hmin, hmax]
      constructor
      · calc ((y1:ℤ):ℚ) = rnd ((y1:ℚ)) := hy1exact.symm
          _ ≤ rnd ((y0:ℚ) + rnd (((y1 - y0 : ℤ):ℚ) * f)) := by
              apply rnd_mono
              push_cast at ht2lo ⊢
              linarith
      · calc rnd ((y0:ℚ) + rnd (((y1 - y0 : ℤ):ℚ) * f)) ≤ rnd ((y0:ℚ)) :=
              rnd_mono (by linarith)
          _ = ((y0:ℤ):ℚ) := hy0exact
  obtain ⟨hlo, hhi⟩ := ht2
  obtain ⟨hq1, hq2⟩ := qtrunc_between (min y0 y1) (max y0 y1) _ hlo hhi
  unfold f64toI16
  have hqlo : -32768 ≤ qtrunc (rnd ((y0:ℚ) + rnd (((y1 - y0 : ℤ):ℚ) * f))) := by omega
  have hqhi : qtrunc (rnd ((y0:ℚ) + rnd (((y1 - y0 : ℤ):ℚ) * f))) ≤ 32767 := by omega
  rw [min_eq_right hqhi, max_eq_right hqlo]
  exact ⟨hq1, hq2⟩

/-- Every sample the output loop of `resample_linear` pushes lies between
two input samples: in the interpolation branch between its two anchors, in
the clamp branch it is the last input sample itself. -/
theorem linearSample_bounds (input : List ℤ) (A B : ℕ) (i : ℕ)
    (hlen1 : 1 ≤ input.length) (hlen : input.length < 2 ^ 64)
    (hrange : ∀ x ∈ input, -32768 ≤ x ∧ x ≤ 32767) :
    (∃ a ∈ input, a ≤ linearSample input A B i) ∧
    (∃ b ∈ input, linearSample input A B i ≤ b) := by
  have hlast_mem : input.getD (input.length - 1) 0 ∈ input := by
    rw [List.getD_eq_getElem input 0 (by omega)]
    exact List.getElem_mem _
  have hP0 : (0:ℚ) ≤ rnd (rnd (i:ℚ) * ratio A B) := by
    apply rnd_nonneg
    apply mul_nonneg (rnd_nonneg (by positivity))
    unfold ratio
    exact rnd_nonneg (div_nonneg (rnd_nonneg (by positivity)) (rnd_nonneg (by positivity)))
  have hPrep : isRepr (rnd (rnd (i:ℚ) * ratio A B)) := rnd_repr _
  simp only [linearSample]
  rcases lt_or_le (rnd (rnd (i:ℚ) * ratio A B)) ((2:ℚ) ^ (64:ℤ)) with hsat | hsat
  · rw [f64toUsize_floor _ hP0 hsat]
    obtain ⟨hfrac, hfr0, hfr1⟩ := frac_eval _ hPrep hP0 hsat
    rw [f64toUsize_floor _ hP0 hsat] at hfrac
    rw [hfrac]
    by_cases hidx : ⌊rnd (rnd (i:ℚ) * ratio A B)⌋.toNat + 1 < input.length
    · rw [if_pos hidx]
      have hm0 : input.getD ⌊rnd (rnd (i:ℚ) * ratio A B)⌋.toNat 0 ∈ input := by
        rw [List.getD_eq_getElem input 0 (by omega)]
        exact List.getElem_mem _
      have hm1 : input.getD (⌊rnd (rnd (i:ℚ) * ratio A B)⌋.toNat + 1) 0 ∈ input := by
        rw [List.getD_eq_getElem input 0 hidx]
        exact List.getElem_mem _
      obtain ⟨h0lo, h0hi⟩ := hrange _ hm0
      obtain ⟨h1lo, h1hi⟩ := hrange _ hm1
      rw [rnd_intCast (input.getD ⌊rnd (rnd (i:ℚ) * ratio A B)⌋.toNat 0)
          (by rw [abs_le]; omega),
        rnd_intCast (input.getD (⌊rnd (rnd (i:ℚ) * ratio A B)⌋.toNat + 1) 0)
          (by rw [abs_le]; omega)]
      obtain ⟨hb1, hb2⟩ := interp_bounds
        (input.getD ⌊rnd (rnd (i:ℚ) * ratio A B)⌋.toNat 0)
        (input.getD (⌊rnd (rnd (i:ℚ) * ratio A B)⌋.toNat + 1) 0)
        (rnd (rnd (i:ℚ) * ratio A B) - ⌊rnd (rnd (i:ℚ) * ratio A B)⌋)
        h0lo h0hi h1lo h1hi hfr0 hfr1
      constructor
      · rcases min_choice (input.getD ⌊rnd (rnd (i:ℚ) * ratio A B)⌋.toNat 0)
            (input.getD (⌊rnd (rnd (i:ℚ) * ratio A B)⌋.toNat + 1) 0) with hm | hm
        · exact ⟨_, hm0, le_of_eq_of_le hm.symm hb1⟩
        · exact ⟨_, hm1, le_of_eq_of_le hm.symm hb1⟩
      · rcases max_choice (input.getD ⌊rnd (rnd (i:ℚ) * ratio A B)⌋.toNat 0)
            (input.getD (⌊rnd (rnd (i:ℚ) * ratio A B)⌋.toNat + 1) 0) with hm | hm
        · exact ⟨_, hm0, le_of_le_of_eq hb2 hm⟩
        · exact ⟨_, hm1, le_of_le_of_eq hb2 hm⟩
    · rw [if_neg hidx]
      exact ⟨⟨_, hlast_mem, le_refl _⟩, ⟨_, hlast_mem, le_refl _⟩⟩
  · have hsatidx : f64toUsize (rnd (rnd (i:ℚ) * ratio A B)) = 2 ^ 64 - 1 := by
      unfold f64toUsize
      rw [if_neg (not_lt.mpr hP0)]
      have hfl : (2 ^ 64 : ℤ) ≤ ⌊rnd (rnd (i:ℚ) * ratio A B)⌋ := by
        rw [Int.le_floor]
        have hc : ((2 ^ 64 : ℤ):ℚ) = (2:ℚ) ^ (64:ℤ) := by norm_num
        rw [hc]
        exact hsat
      rw [min_eq_right (by omega)]
    rw [hsatidx, if_neg (by omega)]
    exact ⟨⟨_, hlast_mem, le_refl _⟩, ⟨_, hlast_mem, le_refl _⟩⟩

/-- C10 (confirmed): for a non-empty input at distinct positive rates (and
any input that fits in a Rust `Vec`, i.e. fewer than `2^64` samples), every
output sample of `resample_linear` lies within `[min(input), max(input)]` —
stated as: each output is bounded below and above by some input element —
and, for i16-range inputs, within the i16 range, so the `f64`-to-`i16` cast
never saturates. -/
theorem C10_linear_output_within_input_bounds (input : List ℤ) (A B : ℕ)
    (hne : input ≠ []) (hAB : A ≠ B) (hA : 0 < A) (hB : 0 < B)
    (hlen : input.length < 2 ^ 64)
    (hrange : ∀ x ∈ input, -32768 ≤ x ∧ x ≤ 32767) :
    ∀ y ∈ resample_linear input A B,
      ((∃ a ∈ input, a ≤ y) ∧ (∃ b ∈ input, y ≤ b)) ∧ -32768 ≤ y ∧ y ≤ 32767 := by
  have hlen1 : 1 ≤ input.length := by
    rcases input with _ | ⟨x, xs⟩
    · exact absurd rfl hne
    · simp
  intro y hy
  have hkey : (∃ a ∈ input, a ≤ y) ∧ (∃ b ∈ input, y ≤ b) := by
    unfold resample_linear at hy
    rw [if_neg (by omega)] at hy
    by_cases h1 : input.length = 1
    · rw [if_pos h1] at hy
      exact ⟨⟨y, hy, le_refl y⟩, ⟨y, hy, le_refl y⟩⟩
    rw [if_neg h1] at hy
    by_cases h2 : new_len input.length A B = 0
    · rw [if_pos h2] at hy
      simp at hy
    rw [if_neg h2] at hy
    obtain ⟨i, _, hieq⟩ := List.mem_map.mp hy
    rw [← hieq]
    exact linearSample_bounds input A B i hlen1 hlen hrange
  obtain ⟨⟨a, ha, hay⟩, ⟨b, hb, hyb⟩⟩ := hkey
  exact ⟨⟨⟨a, ha, hay⟩, ⟨b, hb, hyb⟩⟩, le_trans (hrange a ha).1 hay,
    le_trans hyb (hrange b hb).2⟩

/-- Witness for C10 at the concrete output sample 5 of a concrete run. -/
theorem C10_witness :
    (5:ℤ) ∈ resample_linear [5] 2 1 ∧
    ((∃ a ∈ ([5] : List ℤ), a ≤ 5) ∧ (∃ b ∈ ([5] : List ℤ), (5:ℤ) ≤ b)) ∧
    -32768 ≤ (5:ℤ) ∧ (5:ℤ) ≤ 32767 := by
  have hmem : (5:ℤ) ∈ resample_linear [5] 2 1 := by
    unfold resample_linear
    rw [if_neg (by decide : ¬([5] : List ℤ).length = 0),
      if_pos (by decide : ([5] : List ℤ).length = 1)]
    decide
  exact ⟨hmem, C10_linear_output_within_input_bounds [5] 2 1 (by decide) (by decide)
    (by decide) (by decide) (by norm_num) (by decide) 5 hmem⟩

end TypeFree
